import Mathlib

/-!
Verification of the expense-tracker core (`src/main.py`).

The program computes with Python `decimal.Decimal` under the default
context: results of `+`, `-`, `*`, `/` are the exact rational results
rounded to 28 significant digits with ROUND_HALF_EVEN.  We model a
`Decimal` by its exact value in `ℚ` and model each arithmetic operation
as the exact rational operation followed by `roundQ`, rounding to 28
significant digits, half to even.  Comparisons, `abs`, `min` and `max`
on `Decimal` are exact and are modelled by the corresponding exact
operations on `ℚ`.
-/

/- Batteries marks the `Rat` field operations `@[irreducible]`; restore
semireducibility so that closed-form facts about concrete ledgers can be
settled by kernel reduction (`decide`). -/
set_option allowUnsafeReducibility true
attribute [semireducible] Rat.add Rat.sub Rat.mul Rat.inv

set_option maxRecDepth 10000

namespace ExpenseTracker

/-- Round a rational to the nearest integer, ties to even. -/
def halfEven (r : ℚ) : ℤ :=
  if r - ⌊r⌋ < 1/2 then ⌊r⌋
  else if 1/2 < r - ⌊r⌋ then ⌊r⌋ + 1
  else if 2 ∣ ⌊r⌋ then ⌊r⌋ else ⌊r⌋ + 1

/-- Fuel-driven base-10 logarithm (structural recursion, so that the
kernel can evaluate it; `natLog10_eq` identifies it with `Nat.log 10`). -/
def natLog10Aux : ℕ → ℕ → ℕ
  | 0, _ => 0
  | fuel+1, n => if n < 10 then 0 else natLog10Aux fuel (n / 10) + 1

def natLog10 (n : ℕ) : ℕ := natLog10Aux n n

/-- `floor (log10 (n / d))` for natural `n, d ≥ 1`. -/
def posLog (n d : ℕ) : ℤ :=
  (natLog10 (n * 10 ^ (natLog10 d + 1) / d) : ℤ) - (natLog10 d + 1)

/-- `floor (log10 |q|)` for a nonzero rational `q`: the adjusted exponent of
the decimal representation of `q`. -/
def floorLog10 (q : ℚ) : ℤ := posLog q.num.natAbs q.den

/-- Round a rational to 28 significant decimal digits, half to even: the
value of the result of a Python `decimal` operation (default context,
`prec = 28`, `ROUND_HALF_EVEN`) whose exact rational result is `q`. -/
def roundQ (q : ℚ) : ℚ :=
  if q = 0 then 0
  else halfEven (q / 10 ^ (floorLog10 q - 27)) * 10 ^ (floorLog10 q - 27)

/-- Value of Python `Decimal` addition. -/
def addD (a b : ℚ) : ℚ := roundQ (a + b)

/-- Value of Python `Decimal` subtraction. -/
def subD (a b : ℚ) : ℚ := roundQ (a - b)

/-- Value of Python `Decimal` multiplication. -/
def mulD (a b : ℚ) : ℚ := roundQ (a * b)

/-- Value of Python `Decimal` division.  Every division in the source is
guarded (`len(participants) ≥ 1`, literal `100`, `total_positive > 0`),
so the junk value at `b = 0` is never reached. -/
def divD (a b : ℚ) : ℚ := if b = 0 then 0 else roundQ (a / b)

/-- The system-wide money-comparison epsilon `Decimal('0.01')`. -/
def eps : ℚ := 1/100

/-- Python `sum` over a list of decimals (start value `0`). -/
def sumD (l : List ℚ) : ℚ := l.foldl addD 0

/-!
  ### Data model (from `src/main.py`)

Python dicts preserve insertion order and have distinct keys; we model
them as insertion-ordered association lists.  Error classes: the source
raises `ValueError` with distinguishing messages; the spec names the
three kinds referential / validation / not-found, which we model as an
inductive so that the kinds are statable.  Fresh `uuid4` identifiers are
injected as arguments.  The `date`/`description` fields play no role in
any claim; `date` (wall-clock time) is omitted.
-/

deriving instance DecidableEq for Except

inductive SplitType
  | equal
  | percentage
  | exact
deriving DecidableEq, Repr

inductive Err
  | referential (user_id : String)
  | validation (msg : String)
  | notFound (user_id : String)
deriving DecidableEq, Repr

structure User where
  user_id : String
  name : String
  email : String
deriving DecidableEq, Repr

structure Transaction where
  transaction_id : String
  description : String
  payers : List (String × ℚ)
  participants : List String
  split_type : SplitType
  split_details : List (String × ℚ)  -- `split_details or {}`: `[]` when absent
deriving DecidableEq, Repr

/-- Python `dict` lookup returning `None` when absent (first matching key;
keys of a real dict are distinct). -/
def alookup {α : Type} (l : List (String × α)) (k : String) : Option α :=
  match l with
  | [] => none
  | (k₀, v) :: t => if k₀ = k then some v else alookup t k

def keys {α : Type} (l : List (String × α)) : List String := l.map Prod.fst

namespace Transaction

/-- `self.total_amount = sum(payers.values())` (computed at construction;
transactions are immutable afterwards). -/
def total_amount (t : Transaction) : ℚ := sumD (t.payers.map Prod.snd)

/-- `Transaction.get_user_share`. -/
def get_user_share (t : Transaction) (user_id : String) : ℚ :=
  if user_id ∉ t.participants then 0
  else
    match t.split_type with
    | .equal => divD t.total_amount (t.participants.length : ℚ)
    | .percentage =>
      match alookup t.split_details user_id with
      | none => 0
      | some p => mulD (divD p 100) t.total_amount
    | .exact =>
      match alookup t.split_details user_id with
      | none => 0
      | some a => a

/-- `Transaction.get_user_payment`. -/
def get_user_payment (t : Transaction) (user_id : String) : ℚ :=
  (alookup t.payers user_id).getD 0

/-- `Transaction.get_user_balance`: `paid - owed`. -/
def get_user_balance (t : Transaction) (user_id : String) : ℚ :=
  subD (t.get_user_payment user_id) (t.get_user_share user_id)

/-- `Transaction._validate` (run inside `__init__` after `total_amount`
is computed); the raised `ValueError`s become validation errors. -/
def validate (t : Transaction) : Except Err Unit :=
  match t.payers.find? (fun p => decide (p.2 ≤ 0)) with
  | some p => .error (.validation ("Payment amount must be positive for user " ++ p.1))
  | none =>
    if t.split_type = .percentage ∧ t.split_details ≠ [] ∧
        eps < |subD (sumD (t.split_details.map Prod.snd)) 100| then
      .error (.validation "Percentage split must sum to 100%")
    else if t.split_type = .exact ∧ t.split_details ≠ [] ∧
        eps < |subD (sumD (t.split_details.map Prod.snd)) t.total_amount| then
      .error (.validation "Exact split amounts must sum to total")
    else .ok ()

end Transaction

/-- `Transaction.__init__`: store the fields, then validate. -/
def mkTransaction (transaction_id description : String) (payers : List (String × ℚ))
    (participants : List String) (split_type : SplitType)
    (split_details : List (String × ℚ)) : Except Err Transaction :=
  match (⟨transaction_id, description, payers, participants, split_type,
      split_details⟩ : Transaction).validate with
  | .error e => .error e
  | .ok _ =>
    .ok ⟨transaction_id, description, payers, participants, split_type, split_details⟩

structure ExpenseManager where
  users : List (String × User)
  transactions : List (String × Transaction)
  user_transactions : List (String × List String)
  balance_cache : List (String × List (String × ℚ))
  cache_valid : Bool
deriving DecidableEq, Repr

namespace ExpenseManager

/-- `ExpenseManager.__init__`. -/
def init : ExpenseManager := ⟨[], [], [], [], false⟩

def userIds (m : ExpenseManager) : List String := keys m.users

/-- `ExpenseManager.add_user` (the fresh uuid is injected). -/
def add_user (m : ExpenseManager) (user_id name email : String) :
    ExpenseManager × User :=
  ({ m with
      users := m.users ++ [(user_id, ⟨user_id, name, email⟩)],
      user_transactions := m.user_transactions ++ [(user_id, [])],
      cache_valid := false },
   ⟨user_id, name, email⟩)

/-- `ExpenseManager.get_user`. -/
def get_user (m : ExpenseManager) (user_id : String) : Option User :=
  alookup m.users user_id

/-- One step of the `user_transactions` index update. -/
def addTid (ut : List (String × List String)) (user_id tid : String) :
    List (String × List String) :=
  if (alookup ut user_id).isSome then
    ut.map (fun p => if p.1 = user_id then (p.1, p.2 ++ [tid]) else p)
  else ut ++ [(user_id, [tid])]

/-- `ExpenseManager.add_transaction` (fresh uuid injected as `tid`).
Python iterates `set(payers).union(set(participants))` in unspecified
order to update the index; we use first-occurrence order, which the
claims are insensitive to. -/
def add_transaction (m : ExpenseManager) (tid description : String)
    (payers : List (String × ℚ)) (participants : List String)
    (split_type : SplitType := .equal) (split_details : List (String × ℚ) := []) :
    ExpenseManager × Except Err Transaction :=
  match (keys payers ++ participants).find? (fun u => (alookup m.users u).isNone) with
  | some u => (m, .error (.referential u))  -- raised before the Transaction is constructed
  | none =>
    match mkTransaction tid description payers participants split_type split_details with
    | .error e => (m, .error e)             -- raised before any state is written
    | .ok t =>
      ({ m with
          transactions := m.transactions ++ [(tid, t)],
          user_transactions :=
            ((keys payers ++ participants).dedup).foldl (fun ut u => addTid ut u tid)
              m.user_transactions,
          cache_valid := false },
       .ok t)

/-- `ExpenseManager.get_transaction`. -/
def get_transaction (m : ExpenseManager) (tid : String) : Option Transaction :=
  alookup m.transactions tid

/-- `total_positive` in `_calculate_balances`:
`sum(max(balance(uid), 0) for uid in participants if uid != other_id)`. -/
def total_positive (t : Transaction) (debtor : String) : ℚ :=
  sumD ((t.participants.filter (fun uid => decide (uid ≠ debtor))).map
    (fun uid => max (t.get_user_balance uid) 0))

/-- The initial balances matrix:
`{u: {o: Decimal('0') for o in users if o != u} for u in users}`. -/
def initBalances (users : List String) : List (String × List (String × ℚ)) :=
  users.map (fun u =>
    (u, (users.filter (fun o => decide (o ≠ u))).map (fun o => (o, (0:ℚ)))))

/-- `balances[d][c] += x` (both keys present whenever the source reaches
this line; on an absent key this is a no-op where Python would raise). -/
def updEntry (mat : List (String × List (String × ℚ))) (d c : String) (x : ℚ) :
    List (String × List (String × ℚ)) :=
  mat.map (fun r =>
    if r.1 = d then (r.1, r.2.map (fun p => if p.1 = c then (p.1, addD p.2 x) else p))
    else r)

/-- `share = (user_balance / total_positive) * abs(other_balance)` — the
amount `_calculate_balances` adds into `balances[debtor][creditor]`
(also exactly the spec's allocation formula
`(balance(creditor) / total_positive(debtor)) * |balance(debtor)|`). -/
def allocation (t : Transaction) (d c : String) : ℚ :=
  mulD (divD (t.get_user_balance c) (total_positive t d)) |t.get_user_balance d|

/-- The body of the `other_id` (debtor) loop of `_calculate_balances`,
with `user_id = c` (the creditor) fixed. -/
def innerStep (t : Transaction) (c : String)
    (mat : List (String × List (String × ℚ))) (d : String) :
    List (String × List (String × ℚ)) :=
  if d ≠ c then
    if t.get_user_balance d < 0 ∧ 0 < t.get_user_balance c then
      if 0 < total_positive t d then updEntry mat d c (allocation t d c)
      else mat
    else mat
  else mat

/-- The body of the `user_id` (creditor) loop of `_calculate_balances`. -/
def outerStep (t : Transaction) (users : List String)
    (mat : List (String × List (String × ℚ))) (c : String) :
    List (String × List (String × ℚ)) :=
  if t.get_user_balance c ≠ 0 then users.foldl (innerStep t c) mat else mat

/-- The body of the transaction loop of `_calculate_balances`. -/
def processTransaction (users : List String)
    (mat : List (String × List (String × ℚ))) (t : Transaction) :
    List (String × List (String × ℚ)) :=
  users.foldl (outerStep t users) mat

/-- `ExpenseManager._calculate_balances`. -/
def _calculate_balances (m : ExpenseManager) :
    List (String × List (String × ℚ)) :=
  m.transactions.foldl (fun mat p => processTransaction m.userIds mat p.2)
    (initBalances m.userIds)

/-- `ExpenseManager.get_balances` (recomputes and caches when the flag is
false; otherwise serves the cache). -/
def get_balances (m : ExpenseManager) :
    ExpenseManager × List (String × List (String × ℚ)) :=
  if m.cache_valid then (m, m.balance_cache)
  else
    ({ m with balance_cache := m._calculate_balances, cache_valid := true },
     m._calculate_balances)

/-- `owes.get(other, Decimal('0'))` inside `get_user_balance`: the
queried user's row entry for `other`, kept only when positive
(`owes = {o: amt for o, amt in balances[user].items() if amt > 0}`). -/
def owesAmount (B : List (String × List (String × ℚ))) (user_id other : String) : ℚ :=
  if 0 < (alookup ((alookup B user_id).getD []) other).getD 0 then
    (alookup ((alookup B user_id).getD []) other).getD 0
  else 0

/-- `owed.get(other, Decimal('0'))` inside `get_user_balance`:
`balances[other].get(user, 0)`, kept only when positive. -/
def owedAmount (B : List (String × List (String × ℚ))) (user_id other : String) : ℚ :=
  if 0 < (alookup ((alookup B other).getD []) user_id).getD 0 then
    (alookup ((alookup B other).getD []) user_id).getD 0
  else 0

/-- One iteration of the `net` loop of `get_user_balance`: skip the user
themselves, keep `owed - owes` when positive, `-(owes - owed)` when
negative, drop exact zeros. -/
def netEntry (B : List (String × List (String × ℚ))) (user_id other : String) :
    Option (String × ℚ) :=
  if other = user_id then none
  else if owesAmount B user_id other < owedAmount B user_id other then
    some (other, subD (owedAmount B user_id other) (owesAmount B user_id other))
  else if owedAmount B user_id other < owesAmount B user_id other then
    some (other, -(subD (owesAmount B user_id other) (owedAmount B user_id other)))
  else none

/-- `ExpenseManager.get_user_balance`. -/
def get_user_balance (m : ExpenseManager) (user_id : String) :
    ExpenseManager × Except Err (List (String × ℚ)) :=
  if (alookup m.users user_id).isNone then (m, .error (.notFound user_id))
  else
    (m.get_balances.1,
      .ok (m.userIds.filterMap (netEntry m.get_balances.2 user_id)))

/-- The per-user ledger-wide net balance computed inside
`get_simplified_settlements`: the sum of `balance(user)` over exactly the
transactions in which the user appears as participant or payer. -/
def net_balance (m : ExpenseManager) (u : String) : ℚ :=
  sumD ((m.transactions.filter
      (fun p => decide (u ∈ p.2.participants ∨ (alookup p.2.payers u).isSome))).map
    (fun p => p.2.get_user_balance u))

def balancesList (m : ExpenseManager) : List (String × ℚ) :=
  m.userIds.map (fun u => (u, m.net_balance u))

/-- Stable insertion into an ascending run (equal keys keep their
original relative order, matching Python's stable `list.sort`). -/
def insertAsc (x : String × ℚ) : List (String × ℚ) → List (String × ℚ)
  | [] => [x]
  | y :: ys => if y.2 < x.2 then y :: insertAsc x ys else x :: y :: ys

/-- Stable sort ascending by balance: extensionally equal to Python's
stable `balances.sort(key=lambda x: x[1])`. -/
def sortAsc : List (String × ℚ) → List (String × ℚ)
  | [] => []
  | x :: xs => insertAsc x (sortAsc xs)

def nameAt (bal : List (String × ℚ)) (i : ℕ) : String := (bal.getD i ("", 0)).1

def debtAt (bal : List (String × ℚ)) (i : ℕ) : ℚ := (bal.getD i ("", 0)).2

/-- `amount = min(abs(debt), credit)`. -/
def stepAmount (bal : List (String × ℚ)) (i j : ℕ) : ℚ :=
  min |debtAt bal i| (debtAt bal j)

/-- The two balance updates of one loop iteration. -/
def stepBal (bal : List (String × ℚ)) (i j : ℕ) : List (String × ℚ) :=
  (bal.set i (nameAt bal i, addD (debtAt bal i) (stepAmount bal i j))).set j
    (nameAt bal j, subD (debtAt bal j) (stepAmount bal i j))

/-- The `while i < j` two-pointer loop of `get_simplified_settlements`. -/
def settleLoop (bal : List (String × ℚ)) (i j : ℕ) : List (String × String × ℚ) :=
  if hij : i < j then
    if h1 : |debtAt bal i| < eps ∧ |debtAt bal j| < eps then
      settleLoop bal (i + 1) (j - 1)
    else if h2 : 0 ≤ debtAt bal i ∨ debtAt bal j ≤ 0 then []
    else
      (if eps < stepAmount bal i j then
        [(nameAt bal i, nameAt bal j, stepAmount bal i j)]
       else []) ++
      settleLoop (stepBal bal i j)
        (if |addD (debtAt bal i) (stepAmount bal i j)| < eps then i + 1 else i)
        (if |subD (debtAt bal j) (stepAmount bal i j)| < eps then j - 1 else j)
  else []
termination_by j - i
decreasing_by
  · omega
  · push_neg at h2
    have hk : |addD (debtAt bal i) (stepAmount bal i j)| < eps ∨
        |subD (debtAt bal j) (stepAmount bal i j)| < eps := by
      rcases le_total |debtAt bal i| (debtAt bal j) with hm | hm
      · left
        have hmin : stepAmount bal i j = |debtAt bal i| := min_eq_left hm
        rw [hmin, abs_of_neg h2.1]
        rw [show addD (debtAt bal i) (-(debtAt bal i)) = 0 from by
          unfold addD
          rw [add_neg_cancel]
          unfold roundQ
          rw [if_pos rfl]]
        rw [abs_zero]
        unfold eps
        norm_num
      · right
        have hmin : stepAmount bal i j = debtAt bal j := min_eq_right hm
        rw [hmin]
        rw [show subD (debtAt bal j) (debtAt bal j) = 0 from by
          unfold subD
          rw [sub_self]
          unfold roundQ
          rw [if_pos rfl]]
        rw [abs_zero]
        unfold eps
        norm_num
    rcases hk with hk | hk
    · rw [dif_pos hk]
      split <;> omega
    · rw [dif_pos hk]
      split <;> omega

/-- Fuel-driven evaluator for `settleLoop` (structural recursion, so the
kernel can run it); `settleLoopF_eq` shows any fuel above the loop
measure `j - i` computes `settleLoop`. -/
def settleLoopF : ℕ → List (String × ℚ) → ℕ → ℕ → List (String × String × ℚ)
  | 0, _, _, _ => []
  | fuel+1, bal, i, j =>
    if i < j then
      if |debtAt bal i| < eps ∧ |debtAt bal j| < eps then
        settleLoopF fuel bal (i + 1) (j - 1)
      else if 0 ≤ debtAt bal i ∨ debtAt bal j ≤ 0 then []
      else
        (if eps < stepAmount bal i j then
          [(nameAt bal i, nameAt bal j, stepAmount bal i j)]
         else []) ++
        settleLoopF fuel (stepBal bal i j)
          (if |addD (debtAt bal i) (stepAmount bal i j)| < eps then i + 1 else i)
          (if |subD (debtAt bal j) (stepAmount bal i j)| < eps then j - 1 else j)
    else []

/-- `ExpenseManager.get_simplified_settlements`. -/
def get_simplified_settlements (m : ExpenseManager) :
    List (String × String × ℚ) :=
  settleLoop (sortAsc m.balancesList) 0 ((sortAsc m.balancesList).length - 1)

end ExpenseManager

/-- The users over which any "sum over all users of a transaction" claim
ranges: every user occurring as payer or participant, once each. -/
def Transaction.allUsers (t : Transaction) : List String :=
  (keys t.payers ++ t.participants).dedup

/-- The (debtor, creditor) entry of a balances matrix: `none` when the
pair is absent from the nested dict. -/
def entryVal (mat : List (String × List (String × ℚ))) (d c : String) : Option ℚ :=
  (alookup mat d).bind (fun row => alookup row c)

/-- The condition under which `_calculate_balances` adds an allocation
for (debtor, creditor) in one transaction — the spec's "debtor's
in-transaction balance < 0, creditor's > 0, distinct users, skip when
total_positive is 0". -/
def contrib (t : Transaction) (d c : String) : Prop :=
  d ≠ c ∧ t.get_user_balance d < 0 ∧ 0 < t.get_user_balance c ∧
    0 < ExpenseManager.total_positive t d

instance (t : Transaction) (d c : String) : Decidable (contrib t d c) := by
  unfold contrib
  infer_instance

/-- The spec's accumulation, per matrix entry: over every transaction (in
ledger order), if the contribution condition holds, accumulate
`(balance(creditor) / total_positive(debtor)) * |balance(debtor)|` into
matrix[debtor][creditor]. -/
def entrySpec (m : ExpenseManager) (d c : String) : ℚ :=
  m.transactions.foldl (fun acc p =>
    if contrib p.2 d c then addD acc (ExpenseManager.allocation p.2 d c) else acc) 0

/-- C9's scenario transaction: A pays 90, participants {A, B, C}, EQUAL. -/
def dinnerT : Transaction := ⟨"t1", "dinner", [("A", 90)], ["A", "B", "C"], .equal, []⟩

/-- C9's scenario ledger: exactly the state reached by three `add_user`
calls and one successful `add_transaction`. -/
def dinnerLedger : ExpenseManager :=
  ⟨[("A", ⟨"A", "Alice", "a@x"⟩), ("B", ⟨"B", "Bob", "b@x"⟩), ("C", ⟨"C", "Cara", "c@x"⟩)],
   [("t1", dinnerT)], [("A", ["t1"]), ("B", ["t1"]), ("C", ["t1"])], [], false⟩

/-- 100 split equally among three participants: the division
`100 / 3` rounds at 28 significant digits. -/
def equalSplitT : Transaction :=
  ⟨"t1", "group of three", [("A", 100)], ["A", "B", "C"], .equal, []⟩

/-- Duplicate participant under EQUAL split. -/
def dupPartT : Transaction := ⟨"t1", "dup", [("A", 100)], ["A", "A"], .equal, []⟩

/-- `dupPartT` with the duplicate participant removed. -/
def dedupPartT : Transaction := ⟨"t1", "dup", [("A", 100)], ["A"], .equal, []⟩

/-- `dinnerT` with its participants listed in a different order. -/
def permT : Transaction := ⟨"t1", "dinner", [("A", 90)], ["B", "C", "A"], .equal, []⟩

/-- A PERCENTAGE transaction with an empty details mapping. -/
def smallPercT : Transaction := ⟨"t1", "skip", [("A", 5)], ["A"], .percentage, []⟩

/-- Payer amounts whose exact sum needs 29 significant digits. -/
def hugeT : Transaction :=
  ⟨"t1", "huge", [("A", 10 ^ 28), ("B", 1)], ["A", "B"], .percentage, []⟩

/-- A ledger holding the single user A. -/
def oneUserLedger : ExpenseManager := (ExpenseManager.init.add_user "A" "Alice" "a@x").1

/-- A and B with no transactions. -/
def twoUserLedger : ExpenseManager :=
  ((ExpenseManager.init.add_user "A" "Alice" "a@x").1.add_user "B" "Bob" "b@x").1

/-- A valid transaction leaving A's net balance at +1000 with nobody
owing anything: A pays 1000, sole participant B, PERCENTAGE split with
empty details (all shares 0). -/
def unmatchedT : Transaction := ⟨"t1", "paid", [("A", 1000)], ["B"], .percentage, []⟩

/-- The ledger holding `unmatchedT`. -/
def unmatchedLedger : ExpenseManager :=
  ⟨[("A", ⟨"A", "Alice", "a@x"⟩), ("B", ⟨"B", "Bob", "b@x"⟩)],
   [("t1", unmatchedT)], [("A", ["t1"]), ("B", ["t1"])], [], false⟩

/-- Applying a settlement list as payments — the operation named by the
spec ("output, when applied as payments (debtor pays creditor the
amount)"): each (debtor, creditor, amount) raises the debtor's net by
the amount and lowers the creditor's. -/
def appliedNet (settlements : List (String × String × ℚ)) (net : String → ℚ)
    (u : String) : ℚ :=
  net u + ((settlements.filter (fun s => decide (s.1 = u))).map (fun s => s.2.2)).sum
    - ((settlements.filter (fun s => decide (s.2.1 = u))).map (fun s => s.2.2)).sum

/-!
  ### Lemmas

Facts about the rounding model, the data model, and per-transaction
conservation, shared by the claim theorems below.
-/

theorem natLog10Aux_eq (fuel n : ℕ) (h : n ≤ fuel) :
    natLog10Aux fuel n = Nat.log 10 n := by
  induction fuel generalizing n with
  | zero =>
    interval_cases n
    simp [natLog10Aux]
  | succ f ih =>
    unfold natLog10Aux
    by_cases h10 : n < 10
    · rw [if_pos h10, Nat.log_of_lt h10]
    · rw [if_neg h10]
      rw [ih (n / 10) (by omega)]
      have hpos : 0 < Nat.log 10 n := Nat.log_pos (by norm_num) (by omega)
      rw [Nat.log_div_base]
      omega

theorem natLog10_eq (n : ℕ) : natLog10 n = Nat.log 10 n :=
  natLog10Aux_eq n n le_rfl

theorem halfEven_intCast (z : ℤ) : halfEven (z : ℚ) = z := by
  unfold halfEven
  rw [Int.floor_intCast]
  rw [if_pos (by norm_num)]

theorem abs_halfEven_sub_le (r : ℚ) : |(halfEven r : ℚ) - r| ≤ 1 := by
  unfold halfEven
  have h0 : (⌊r⌋ : ℚ) ≤ r := Int.floor_le r
  have h1 : r < (⌊r⌋ : ℚ) + 1 := Int.lt_floor_add_one r
  by_cases hlt : r - (⌊r⌋ : ℚ) < 1/2
  · rw [if_pos hlt, abs_le]
    constructor <;> linarith
  · rw [if_neg hlt]
    by_cases hgt : 1/2 < r - (⌊r⌋ : ℚ)
    · rw [if_pos hgt, abs_le]
      push_cast
      constructor <;> linarith
    · rw [if_neg hgt]
      by_cases hev : 2 ∣ ⌊r⌋
      · rw [if_pos hev, abs_le]
        constructor <;> linarith
      · rw [if_neg hev, abs_le]
        push_cast
        constructor <;> linarith

theorem halfEven_le (r : ℚ) (z : ℤ) (h : (z : ℚ) ≤ r) : z ≤ halfEven r := by
  unfold halfEven
  have hf : z ≤ ⌊r⌋ := Int.le_floor.mpr h
  by_cases hlt : r - (⌊r⌋ : ℚ) < 1/2
  · rw [if_pos hlt]
    exact hf
  · rw [if_neg hlt]
    by_cases hgt : 1/2 < r - (⌊r⌋ : ℚ)
    · rw [if_pos hgt]
      omega
    · rw [if_neg hgt]
      by_cases hev : 2 ∣ ⌊r⌋
      · rw [if_pos hev]
        exact hf
      · rw [if_neg hev]
        omega

theorem halfEven_nonneg (r : ℚ) (h : 0 ≤ r) : 0 ≤ halfEven r :=
  halfEven_le r 0 (by exact_mod_cast h)

theorem halfEven_neg (r : ℚ) : halfEven (-r) = -halfEven r := by
  by_cases hz : r = (⌊r⌋ : ℚ)
  · rw [hz]
    rw [show (-(⌊r⌋ : ℚ)) = ((-⌊r⌋ : ℤ) : ℚ) by push_cast; ring]
    rw [halfEven_intCast, halfEven_intCast]
  · have h1 : (⌊r⌋ : ℚ) < r :=
      lt_of_le_of_ne (Int.floor_le r) (fun h => hz h.symm)
    have h2 : r < (⌊r⌋ : ℚ) + 1 := Int.lt_floor_add_one r
    have hceil : ⌈r⌉ = ⌊r⌋ + 1 := by
      apply le_antisymm
      · exact Int.ceil_le.mpr (by push_cast; linarith)
      · have hlt : (⌊r⌋ : ℚ) < ⌈r⌉ := lt_of_lt_of_le h1 (Int.le_ceil r)
        exact_mod_cast Int.add_one_le_iff.mpr (by exact_mod_cast hlt)
    have hfloor : ⌊-r⌋ = -⌊r⌋ - 1 := by
      rw [Int.floor_neg, hceil]
      ring
    have hfrac : -r - (⌊-r⌋ : ℚ) = 1 - (r - ⌊r⌋) := by
      rw [hfloor]
      push_cast
      ring
    unfold halfEven
    rw [hfrac, hfloor]
    by_cases hlt : r - (⌊r⌋ : ℚ) < 1/2
    · rw [if_pos hlt]
      rw [if_neg (by linarith : ¬ (1 - (r - (⌊r⌋:ℚ)) < 1/2))]
      rw [if_pos (by linarith : (1:ℚ)/2 < 1 - (r - (⌊r⌋:ℚ)))]
      ring
    · rw [if_neg hlt]
      by_cases hgt : 1/2 < r - (⌊r⌋ : ℚ)
      · rw [if_pos hgt]
        rw [if_pos (by linarith : 1 - (r - (⌊r⌋:ℚ)) < 1/2)]
        ring
      · have heq : r - (⌊r⌋ : ℚ) = 1/2 := le_antisymm (not_lt.mp hgt) (not_lt.mp hlt)
        rw [if_neg hgt]
        rw [if_neg (by rw [heq]; norm_num : ¬ (1 - (r - (⌊r⌋:ℚ)) < 1/2))]
        rw [if_neg (by rw [heq]; norm_num : ¬ ((1:ℚ)/2 < 1 - (r - (⌊r⌋:ℚ))))]
        by_cases hev : 2 ∣ ⌊r⌋
        · rw [if_pos hev, if_neg (by omega : ¬ (2 ∣ (-⌊r⌋ - 1)))]
          ring
        · rw [if_neg hev, if_pos (by omega : 2 ∣ (-⌊r⌋ - 1))]
          ring

theorem floorLog10_bounds (q : ℚ) (hq : q ≠ 0) :
    (10:ℚ) ^ (floorLog10 q) ≤ |q| ∧ |q| < (10:ℚ) ^ (floorLog10 q + 1) := by
  have hnum : q.num ≠ 0 := Rat.num_ne_zero.mpr hq
  have hn1 : 0 < q.num.natAbs := Int.natAbs_pos.mpr hnum
  have hd0 : 0 < q.den := q.den_pos
  set n := q.num.natAbs with hn_def
  set d := q.den with hd_def
  have habs : |q| = (n : ℚ) / (d : ℚ) := by
    conv_lhs => rw [← Rat.num_div_den q]
    rw [abs_div]
    rw [show |(q.num : ℚ)| = ((n : ℕ) : ℚ) from by rw [Int.cast_natAbs, Int.cast_abs]]
    rw [abs_of_pos (by exact_mod_cast hd0 : (0:ℚ) < (q.den : ℚ))]
  set L := Nat.log 10 d + 1 with hL_def
  have hdL : d < 10 ^ L := Nat.lt_pow_succ_log_self (by norm_num) d
  set M := n * 10 ^ L / d with hM_def
  have hdn : d ≤ n * 10 ^ L := by
    calc d ≤ 10 ^ L := le_of_lt hdL
    _ ≤ n * 10 ^ L := Nat.le_mul_of_pos_left _ hn1
  have hM1 : 0 < M := Nat.div_pos hdn hd0
  set k := Nat.log 10 M with hk_def
  have low : 10 ^ k ≤ M := Nat.pow_log_le_self 10 (by omega)
  have high : M < 10 ^ (k + 1) := Nat.lt_pow_succ_log_self (by norm_num) M
  have lowN : 10 ^ k * d ≤ n * 10 ^ L := (Nat.le_div_iff_mul_le hd0).mp low
  have highN : n * 10 ^ L < 10 ^ (k + 1) * d := (Nat.div_lt_iff_lt_mul hd0).mp high
  have hflog : floorLog10 q = (k : ℤ) - (L : ℤ) := by
    simp only [floorLog10, posLog, natLog10_eq, ← hn_def, ← hd_def, ← hL_def, ← hM_def,
      ← hk_def]
    push_cast
    ring
  have h10 : (0:ℚ) < 10 := by norm_num
  have hdQ : (0:ℚ) < (d : ℚ) := by exact_mod_cast hd0
  have hLpow : (0:ℚ) < (10:ℚ) ^ (L : ℤ) := zpow_pos h10 _
  constructor
  · rw [hflog, habs, zpow_sub₀ (ne_of_gt h10)]
    rw [div_le_div_iff hLpow hdQ]
    have : ((10 ^ k * d : ℕ) : ℚ) ≤ ((n * 10 ^ L : ℕ) : ℚ) := by exact_mod_cast lowN
    push_cast at this
    rw [zpow_natCast, zpow_natCast]
    linarith
  · rw [hflog, habs]
    rw [show (k : ℤ) - (L : ℤ) + 1 = ((k + 1 : ℕ) : ℤ) - (L : ℤ) by push_cast; ring]
    rw [zpow_sub₀ (ne_of_gt h10)]
    rw [div_lt_div_iff hdQ hLpow]
    have : ((n * 10 ^ L : ℕ) : ℚ) < ((10 ^ (k + 1) * d : ℕ) : ℚ) := by exact_mod_cast highN
    push_cast at this
    rw [zpow_natCast, zpow_natCast]
    linarith

theorem roundQ_zero : roundQ 0 = 0 := by
  unfold roundQ
  rw [if_pos rfl]

/-- The rounding error of `roundQ` is at most `|q| / 10^27`. -/
theorem roundQ_error (q : ℚ) : |roundQ q - q| ≤ |q| / 10 ^ 27 := by
  by_cases hq : q = 0
  · rw [hq, roundQ_zero]
    norm_num
  · unfold roundQ
    rw [if_neg hq]
    set a := floorLog10 q with ha_def
    set u : ℚ := 10 ^ (a - 27) with hu_def
    have hu0 : (0:ℚ) < u := zpow_pos (by norm_num) _
    have herr : |(halfEven (q / u) : ℚ) - q / u| ≤ 1 := abs_halfEven_sub_le _
    have key : (halfEven (q / u) : ℚ) * u - q = ((halfEven (q / u) : ℚ) - q / u) * u := by
      field_simp
    rw [key, abs_mul, abs_of_pos hu0]
    have hua : u ≤ |q| / 10 ^ 27 := by
      have hbound := (floorLog10_bounds q hq).1
      rw [hu_def, zpow_sub₀ (by norm_num : (10:ℚ) ≠ 0)]
      rw [div_le_div_iff (zpow_pos (by norm_num) _) (by norm_num : (0:ℚ) < 10 ^ 27)]
      calc (10:ℚ) ^ a * 10 ^ 27 ≤ |q| * 10 ^ 27 := by
            apply mul_le_mul_of_nonneg_right hbound (by norm_num)
        _ = |q| * ((10:ℚ) ^ (27:ℤ)) := by norm_num
    calc |(halfEven (q / u) : ℚ) - q / u| * u ≤ 1 * u :=
          mul_le_mul_of_nonneg_right herr (le_of_lt hu0)
      _ = u := one_mul u
      _ ≤ |q| / 10 ^ 27 := hua

theorem roundQ_eq_self_of_int_div (q : ℚ) (hq : q ≠ 0) (w : ℤ)
    (h : q / 10 ^ (floorLog10 q - 27) = (w:ℚ)) : roundQ q = q := by
  unfold roundQ
  rw [if_neg hq, h, halfEven_intCast]
  have hu : ((10:ℚ) ^ (floorLog10 q - 27)) ≠ 0 := by
    exact ne_of_gt (zpow_pos (by norm_num) _)
  field_simp at h
  rw [← h]

theorem roundQ_of_int_mul_lt (z e : ℤ) (hz : |z| < 10 ^ 28) :
    roundQ ((z : ℚ) * 10 ^ e) = (z : ℚ) * 10 ^ e := by
  by_cases hz0 : z = 0
  · rw [hz0]
    push_cast
    rw [zero_mul, roundQ_zero]
  · set q : ℚ := (z : ℚ) * 10 ^ e with hq_def
    have hpow : (0:ℚ) < (10:ℚ) ^ e := zpow_pos (by norm_num) _
    have hq : q ≠ 0 := by
      apply mul_ne_zero
      · exact_mod_cast hz0
      · exact ne_of_gt hpow
    have habs : |q| = |(z:ℚ)| * 10 ^ e := by
      rw [hq_def, abs_mul, abs_of_pos hpow]
    have hzQ : |(z:ℚ)| < (10:ℚ) ^ (28:ℕ) := by
      rw [← Int.cast_abs]
      exact_mod_cast hz
    have hbounds := floorLog10_bounds q hq
    set a := floorLog10 q with ha_def
    have hqlt : |q| < (10:ℚ) ^ (e + 28) := by
      rw [habs]
      calc |(z:ℚ)| * 10 ^ e < (10:ℚ) ^ (28:ℕ) * 10 ^ e :=
            mul_lt_mul_of_pos_right hzQ hpow
        _ = (10:ℚ) ^ (e + 28) := by
            rw [zpow_add₀ (by norm_num : (10:ℚ) ≠ 0)]
            rw [← zpow_natCast (10:ℚ) 28]
            ring
    have halt : a < e + 28 := by
      by_contra hcon
      push_neg at hcon
      have : (10:ℚ) ^ (e + 28) ≤ (10:ℚ) ^ a :=
        zpow_le_zpow_right₀ (by norm_num) hcon
      linarith [hbounds.1]
    have hexp : (0:ℤ) ≤ e - (a - 27) := by omega
    apply roundQ_eq_self_of_int_div q hq (z * 10 ^ (e - (a - 27)).toNat)
    push_cast
    rw [← zpow_natCast (10:ℚ) ((e - (a - 27)).toNat), Int.toNat_of_nonneg hexp]
    rw [hq_def, mul_div_assoc, ← zpow_sub₀ (by norm_num : (10:ℚ) ≠ 0)]

/-- Any value `z * 10^e` with `|z| ≤ 10^28` (at most 28 significant digits,
including the rounded-up boundary) is a fixed point of `roundQ`. -/
theorem roundQ_of_int_mul (z e : ℤ) (hz : |z| ≤ 10 ^ 28) :
    roundQ ((z : ℚ) * 10 ^ e) = (z : ℚ) * 10 ^ e := by
  rcases lt_or_eq_of_le hz with hlt | heq
  · exact roundQ_of_int_mul_lt z e hlt
  · have hcases : z = 10 ^ 28 ∨ z = -(10 ^ 28) :=
      (abs_eq (by positivity : (0:ℤ) ≤ 10 ^ 28)).mp heq
    rcases hcases with hz1 | hz1
    · rw [show (z:ℚ) * 10 ^ e = ((10 ^ 27 : ℤ) : ℚ) * 10 ^ (e + 1) from by
        rw [hz1]; push_cast; rw [zpow_add₀ (by norm_num : (10:ℚ) ≠ 0) e 1]; ring]
      exact roundQ_of_int_mul_lt _ _ (by norm_num)
    · rw [show (z:ℚ) * 10 ^ e = ((-(10 ^ 27) : ℤ) : ℚ) * 10 ^ (e + 1) from by
        rw [hz1]; push_cast; rw [zpow_add₀ (by norm_num : (10:ℚ) ≠ 0) e 1]; ring]
      exact roundQ_of_int_mul_lt _ _ (by norm_num)

theorem roundQ_nonneg (q : ℚ) (h : 0 ≤ q) : 0 ≤ roundQ q := by
  rcases eq_or_lt_of_le h with h0 | h0
  · rw [← h0, roundQ_zero]
  · unfold roundQ
    rw [if_neg (ne_of_gt h0)]
    have hu : (0:ℚ) < 10 ^ (floorLog10 q - 27) := zpow_pos (by norm_num) _
    apply mul_nonneg _ (le_of_lt hu)
    exact_mod_cast halfEven_nonneg _ (div_nonneg h (le_of_lt hu))

theorem roundQ_pos (q : ℚ) (h : 0 < q) : 0 < roundQ q := by
  unfold roundQ
  rw [if_neg (ne_of_gt h)]
  have hu : (0:ℚ) < 10 ^ (floorLog10 q - 27) := zpow_pos (by norm_num) _
  apply mul_pos _ hu
  have hb := (floorLog10_bounds q (ne_of_gt h)).1
  rw [abs_of_pos h] at hb
  have hq : ((10 ^ 27 : ℤ) : ℚ) ≤ q / 10 ^ (floorLog10 q - 27) := by
    rw [le_div_iff₀ hu]
    push_cast
    calc (10:ℚ) ^ (27:ℕ) * 10 ^ (floorLog10 q - 27)
        = (10:ℚ) ^ (floorLog10 q) := by
          rw [← zpow_natCast (10:ℚ) 27, ← zpow_add₀ (by norm_num : (10:ℚ) ≠ 0)]
          congr 1
          push_cast
          ring
      _ ≤ q := hb
  have := halfEven_le _ _ hq
  have hpos : (0:ℤ) < halfEven (q / 10 ^ (floorLog10 q - 27)) := by
    calc (0:ℤ) < 10 ^ 27 := by positivity
      _ ≤ _ := this
  exact_mod_cast hpos

theorem floorLog10_neg (q : ℚ) : floorLog10 (-q) = floorLog10 q := by
  unfold floorLog10
  rw [Rat.num_neg_eq_neg_num, Rat.den_neg_eq_den, Int.natAbs_neg]

theorem roundQ_neg (q : ℚ) : roundQ (-q) = -roundQ q := by
  by_cases hq : q = 0
  · rw [hq]
    rw [neg_zero, roundQ_zero, neg_zero]
  · unfold roundQ
    rw [if_neg hq, if_neg (neg_ne_zero.mpr hq), floorLog10_neg]
    rw [show -q / 10 ^ (floorLog10 q - 27) = -(q / 10 ^ (floorLog10 q - 27)) from neg_div _ _]
    rw [halfEven_neg]
    push_cast
    ring

theorem roundQ_neg' (q : ℚ) (h : q ≤ 0) : roundQ q ≤ 0 := by
  have : 0 ≤ roundQ (-q) := roundQ_nonneg _ (by linarith)
  rw [roundQ_neg] at this
  linarith

theorem roundQ_neg_pos (q : ℚ) (h : q < 0) : roundQ q < 0 := by
  have : 0 < roundQ (-q) := roundQ_pos _ (by linarith)
  rw [roundQ_neg] at this
  linarith

theorem roundQ_ne_zero (q : ℚ) (h : q ≠ 0) : roundQ q ≠ 0 := by
  rcases lt_or_gt_of_ne h with h0 | h0
  · exact ne_of_lt (roundQ_neg_pos q h0)
  · exact ne_of_gt (roundQ_pos q h0)

open ExpenseManager in
/-- In the settle branch (`debt < 0 < credit`) at least one of the two
updated balances lands (exactly) on zero, so at least one pointer moves. -/
theorem settle_move (bal : List (String × ℚ)) (i j : ℕ)
    (hd : debtAt bal i < 0) (hc : 0 < debtAt bal j) :
    |addD (debtAt bal i) (stepAmount bal i j)| < eps ∨
      |subD (debtAt bal j) (stepAmount bal i j)| < eps := by
  rcases le_total |debtAt bal i| (debtAt bal j) with hm | hm
  · left
    have hmin : stepAmount bal i j = |debtAt bal i| := min_eq_left hm
    rw [hmin, abs_of_neg hd]
    rw [show addD (debtAt bal i) (-(debtAt bal i)) = roundQ 0 from by
      unfold addD; rw [add_neg_cancel]]
    rw [roundQ_zero, abs_zero]
    unfold eps
    norm_num
  · right
    have hmin : stepAmount bal i j = debtAt bal j := min_eq_right hm
    rw [hmin]
    rw [show subD (debtAt bal j) (debtAt bal j) = roundQ 0 from by
      unfold subD; rw [sub_self]]
    rw [roundQ_zero, abs_zero]
    unfold eps
    norm_num

open ExpenseManager in
theorem settleLoopF_eq (fuel : ℕ) (bal : List (String × ℚ)) (i j : ℕ)
    (h : j - i < fuel) : settleLoopF fuel bal i j = settleLoop bal i j := by
  induction fuel generalizing bal i j with
  | zero => omega
  | succ f ih =>
    rw [settleLoop]
    unfold settleLoopF
    by_cases hij : i < j
    · rw [if_pos hij, dif_pos hij]
      by_cases h1 : |debtAt bal i| < eps ∧ |debtAt bal j| < eps
      · rw [if_pos h1, dif_pos h1]
        exact ih bal (i + 1) (j - 1) (by omega)
      · rw [if_neg h1, dif_neg h1]
        by_cases h2 : 0 ≤ debtAt bal i ∨ debtAt bal j ≤ 0
        · rw [if_pos h2, dif_pos h2]
        · rw [if_neg h2, dif_neg h2]
          congr 1
          push_neg at h2
          rcases settle_move bal i j h2.1 h2.2 with hk | hk
          · rw [if_pos hk]
            apply ih
            split <;> omega
          · rw [if_pos hk]
            apply ih
            split <;> omega
    · rw [if_neg hij, dif_neg hij]

theorem roundQ_eq_self_den (x : ℚ) (e : ℕ) (hden : (x * 10 ^ e).den = 1)
    (hb : |x| * 10 ^ e ≤ 10 ^ 28) : roundQ x = x := by
  have hk : x * 10 ^ e = ((x * 10 ^ e).num : ℚ) := by
    exact_mod_cast ((Rat.den_eq_one_iff _).mp hden).symm
  set k := (x * 10 ^ e).num with hk_def
  have hx : x = (k : ℚ) * 10 ^ (-(e:ℤ)) := by
    rw [← hk]
    rw [zpow_neg, zpow_natCast]
    field_simp
  have hkb : |k| ≤ 10 ^ 28 := by
    have : |(k:ℚ)| ≤ 10 ^ 28 := by
      rw [← hk, abs_mul, abs_of_pos (by positivity : (0:ℚ) < 10 ^ e)]
      exact hb
    exact_mod_cast this
  rw [hx]
  exact roundQ_of_int_mul k _ hkb

theorem den_one_add (a b : ℚ) (e : ℕ) (ha : (a * 10 ^ e).den = 1)
    (hb : (b * 10 ^ e).den = 1) : ((a + b) * 10 ^ e).den = 1 := by
  have ha' : a * 10 ^ e = ((a * 10 ^ e).num : ℚ) := by
    exact_mod_cast ((Rat.den_eq_one_iff _).mp ha).symm
  have hb' : b * 10 ^ e = ((b * 10 ^ e).num : ℚ) := by
    exact_mod_cast ((Rat.den_eq_one_iff _).mp hb).symm
  apply (Rat.den_eq_one_iff _).mpr
  have : (a + b) * 10 ^ e = (((a * 10 ^ e).num + (b * 10 ^ e).num : ℤ) : ℚ) := by
    push_cast
    rw [← ha', ← hb']
    ring
  rw [this, Rat.num_intCast]

/-- Python `sum(...)` over cent-scale decimals of moderate total size is
exact: every partial sum has at most 28 significant digits. -/
theorem foldl_addD_exact (l : List ℚ) (c : ℚ)
    (hl : ∀ x ∈ l, (x * 10 ^ 4).den = 1) (hc : (c * 10 ^ 4).den = 1)
    (hb : |c| + (l.map (fun x => |x|)).sum ≤ 10 ^ 24) :
    l.foldl addD c = c + l.sum := by
  induction l generalizing c with
  | nil => simp
  | cons x t ih =>
    have hxl : (x * 10 ^ 4).den = 1 := hl x (List.mem_cons_self x t)
    have htsum : (0:ℚ) ≤ (t.map (fun y => |y|)).sum :=
      List.sum_nonneg (by
        intro y hy
        rcases List.mem_map.mp hy with ⟨z, _, rfl⟩
        exact abs_nonneg z)
    have hxabs : |c| + |x| + (t.map (fun y => |y|)).sum ≤ 10 ^ 24 := by
      have := hb
      simp only [List.map_cons, List.sum_cons] at this
      linarith
    have hstep : addD c x = c + x := by
      unfold addD
      apply roundQ_eq_self_den (c + x) 4 (den_one_add c x 4 hc hxl)
      calc |c + x| * 10 ^ 4 ≤ (|c| + |x|) * 10 ^ 4 := by
            apply mul_le_mul_of_nonneg_right (abs_add c x) (by positivity)
        _ ≤ 10 ^ 24 * 10 ^ 4 := by
            apply mul_le_mul_of_nonneg_right _ (by positivity)
            linarith
        _ ≤ 10 ^ 28 := by norm_num
    rw [List.foldl_cons, hstep]
    rw [ih (c + x) (fun y hy => hl y (List.mem_cons_of_mem x hy))
      (den_one_add c x 4 hc hxl)
      (by
        calc |c + x| + (t.map (fun y => |y|)).sum
            ≤ |c| + |x| + (t.map (fun y => |y|)).sum := by
              linarith [abs_add c x]
          _ ≤ 10 ^ 24 := hxabs)]
    rw [List.sum_cons]
    ring

theorem sumD_exact (l : List ℚ) (hl : ∀ x ∈ l, (x * 10 ^ 4).den = 1)
    (hb : (l.map (fun x => |x|)).sum ≤ 10 ^ 24) : sumD l = l.sum := by
  unfold sumD
  rw [foldl_addD_exact l 0 hl (by norm_num) (by simpa using hb)]
  ring

theorem keys_cons {α : Type} (p : String × α) (t : List (String × α)) :
    keys (p :: t) = p.1 :: keys t := rfl

theorem alookup_cons {α : Type} (k₀ : String) (v₀ : α) (t : List (String × α))
    (u : String) :
    alookup ((k₀, v₀) :: t) u = if k₀ = u then some v₀ else alookup t u := rfl

theorem alookup_mem {α : Type} (ps : List (String × α)) (u : String) (v : α)
    (h : alookup ps u = some v) : (u, v) ∈ ps := by
  induction ps with
  | nil => cases h
  | cons p t ih =>
    obtain ⟨k₀, v₀⟩ := p
    rw [alookup_cons] at h
    by_cases he : k₀ = u
    · rw [if_pos he] at h
      injection h with h
      subst he
      subst h
      exact List.mem_cons_self _ _
    · rw [if_neg he] at h
      exact List.mem_cons_of_mem _ (ih h)

theorem alookup_eq_none {α : Type} (ps : List (String × α)) (u : String)
    (h : u ∉ keys ps) : alookup ps u = none := by
  induction ps with
  | nil => rfl
  | cons p t ih =>
    rw [keys_cons] at h
    have h1 : u ≠ p.1 := fun he => h (he ▸ List.mem_cons_self _ _)
    have h2 : u ∉ keys t := fun hm => h (List.mem_cons_of_mem _ hm)
    unfold alookup
    rw [if_neg (fun he => h1 he.symm), ih h2]

/-- Summing `if u = k then v else g u` over a duplicate-free list
containing `k`, where `g k = 0`. -/
theorem sum_map_ite (us : List String) (k : String) (v : ℚ) (g : String → ℚ)
    (hus : us.Nodup) (hk : k ∈ us) (hg : g k = 0) :
    (us.map (fun u => if u = k then v else g u)).sum = v + (us.map g).sum := by
  induction us with
  | nil => cases hk
  | cons u₀ t ih =>
    rcases List.nodup_cons.mp hus with ⟨hu₀, ht⟩
    by_cases he : u₀ = k
    · subst he
      have htail : t.map (fun u => if u = u₀ then v else g u) = t.map g := by
        apply List.map_congr_left
        intro y hy
        rw [if_neg]
        intro hcon
        exact hu₀ (hcon ▸ hy)
      rw [List.map_cons, List.sum_cons, List.map_cons, List.sum_cons, htail,
        if_pos rfl, hg]
      ring
    · have hk' : k ∈ t := by
        rcases List.mem_cons.mp hk with h | h
        · exact absurd h.symm he
        · exact h
      rw [List.map_cons, List.sum_cons, List.map_cons, List.sum_cons,
        if_neg he, ih ht hk']
      ring

/-- Summing dictionary lookups over a duplicate-free list of users that
covers all keys recovers the sum of the dictionary's values. -/
theorem sum_alookup (us : List String) (ps : List (String × ℚ))
    (hus : us.Nodup) (hps : (keys ps).Nodup) (hsub : ∀ k ∈ keys ps, k ∈ us) :
    (us.map (fun u => (alookup ps u).getD 0)).sum = (ps.map Prod.snd).sum := by
  induction ps with
  | nil => simp [alookup]
  | cons p t ih =>
    rcases List.nodup_cons.mp hps with ⟨hp₀, ht⟩
    have hlk : ∀ u, (alookup (p :: t) u).getD 0 =
        if u = p.1 then p.2 else (alookup t u).getD 0 := by
      intro u
      obtain ⟨k₀, v₀⟩ := p
      show (if k₀ = u then some v₀ else alookup t u).getD 0 = _
      by_cases he : k₀ = u
      · rw [if_pos he, if_pos he.symm]
        rfl
      · rw [if_neg he, if_neg (fun h => he h.symm)]
    have hg0 : (alookup t p.1).getD 0 = 0 := by
      rw [alookup_eq_none t p.1 hp₀]
      rfl
    calc (us.map (fun u => (alookup (p :: t) u).getD 0)).sum
        = (us.map (fun u => if u = p.1 then p.2 else (alookup t u).getD 0)).sum := by
          rw [List.map_congr_left (fun u _ => hlk u)]
      _ = p.2 + (us.map (fun u => (alookup t u).getD 0)).sum :=
          sum_map_ite us p.1 p.2 _ hus
            (hsub p.1 (by rw [keys_cons]; exact List.mem_cons_self _ _)) hg0
      _ = p.2 + (t.map Prod.snd).sum := by
          rw [ih ht (fun k hk =>
            hsub k (by rw [keys_cons]; exact List.mem_cons_of_mem _ hk))]
      _ = ((p :: t).map Prod.snd).sum := by
          simp

open ExpenseManager in
/-- Rewriting `get_simplified_settlements` into its fuel-driven evaluator
(for settling concrete ledgers by kernel reduction). -/
theorem get_simplified_settlements_eval (m : ExpenseManager) :
    m.get_simplified_settlements =
      settleLoopF ((sortAsc m.balancesList).length + 1) (sortAsc m.balancesList) 0
        ((sortAsc m.balancesList).length - 1) :=
  (settleLoopF_eq _ _ _ _ (by omega)).symm

/-- The share of every participant of an EQUAL-split transaction is the
rounded quotient `total_amount / participant_count`. -/
theorem get_user_share_equal (t : Transaction) (hst : t.split_type = .equal)
    (u : String) (hu : u ∈ t.participants) :
    t.get_user_share u = roundQ (t.total_amount / (t.participants.length : ℚ)) := by
  have hnQ : ((t.participants.length : ℚ)) ≠ 0 := by
    have : 0 < t.participants.length := List.length_pos.mpr (by
      intro hnil
      rw [hnil] at hu
      cases hu)
    positivity
  unfold Transaction.get_user_share
  rw [if_neg (not_not_intro hu), hst]
  show divD t.total_amount (t.participants.length : ℚ) = _
  unfold divD
  rw [if_neg hnQ]

/-- `_validate` raises (a validation `ValueError`) whenever a payment is
non-positive, or a PERCENTAGE/EXACT split with a non-empty details
mapping mis-sums beyond epsilon. -/
theorem validate_error_of (t : Transaction)
    (h : (∃ p ∈ t.payers, p.2 ≤ 0) ∨
      (t.split_type = .percentage ∧ t.split_details ≠ [] ∧
        eps < |subD (sumD (t.split_details.map Prod.snd)) 100|) ∨
      (t.split_type = .exact ∧ t.split_details ≠ [] ∧
        eps < |subD (sumD (t.split_details.map Prod.snd)) t.total_amount|)) :
    ∃ msg, t.validate = .error (.validation msg) := by
  unfold Transaction.validate
  cases hfind : t.payers.find? (fun p => decide (p.2 ≤ 0)) with
  | some p => exact ⟨_, rfl⟩
  | none =>
    have hpos : ∀ p ∈ t.payers, ¬(p.2 ≤ 0) := by
      intro p hp
      have := List.find?_eq_none.mp hfind p hp
      simpa using this
    rcases h with ⟨p, hp, hle⟩ | hperc | hexact
    · exact absurd hle (hpos p hp)
    · rw [if_pos hperc]
      exact ⟨_, rfl⟩
    · rw [if_neg, if_pos hexact]
      · exact ⟨_, rfl⟩
      · intro hcon
        rw [hexact.1] at hcon
        cases hcon.1


theorem alookup_map_ite {α : Type} (l : List (String × α)) (d : String) (g : α → α)
    (k : String) :
    alookup (l.map (fun r => if r.1 = d then (r.1, g r.2) else r)) k =
      (alookup l k).map (fun v => if k = d then g v else v) := by
  induction l with
  | nil => rfl
  | cons p t ih =>
    obtain ⟨k₀, v₀⟩ := p
    rw [List.map_cons]
    show alookup ((if k₀ = d then (k₀, g v₀) else (k₀, v₀)) :: _) k = _
    by_cases h₀ : k₀ = d
    · rw [if_pos h₀, alookup_cons, alookup_cons]
      by_cases hk : k₀ = k
      · rw [if_pos hk, if_pos hk]
        subst hk
        rw [Option.map_some']
        rw [if_pos h₀]
      · rw [if_neg hk, if_neg hk]
        exact ih
    · rw [if_neg h₀, alookup_cons, alookup_cons]
      by_cases hk : k₀ = k
      · rw [if_pos hk, if_pos hk]
        subst hk
        rw [Option.map_some']
        rw [if_neg h₀]
      · rw [if_neg hk, if_neg hk]
        exact ih

open ExpenseManager in
theorem entryVal_updEntry (mat : List (String × List (String × ℚ)))
    (d c : String) (x : ℚ) (d' c' : String) :
    entryVal (updEntry mat d c x) d' c' =
      (entryVal mat d' c').map (fun v => if d' = d ∧ c' = c then addD v x else v) := by
  unfold entryVal updEntry
  rw [alookup_map_ite]
  cases hrow : alookup mat d' with
  | none => rfl
  | some row =>
    rw [Option.map_some', Option.some_bind, Option.some_bind]
    by_cases hd : d' = d
    · rw [if_pos hd, alookup_map_ite row c (fun v => addD v x) c']
      cases hentry : alookup row c' with
      | none => rfl
      | some v =>
        rw [Option.map_some', Option.map_some']
        by_cases hc : c' = c
        · rw [if_pos hc, if_pos ⟨hd, hc⟩]
        · rw [if_neg hc, if_neg (fun hcon => hc hcon.2)]
    · rw [if_neg hd]
      cases hentry : alookup row c' with
      | none => rfl
      | some v =>
        rw [Option.map_some', if_neg (fun hcon => hd hcon.1)]

open ExpenseManager in
theorem entryVal_innerStep (t : Transaction) (c : String)
    (mat : List (String × List (String × ℚ))) (d d' c' : String) :
    entryVal (innerStep t c mat d) d' c' =
      (entryVal mat d' c').map (fun v =>
        if d' = d ∧ c' = c ∧ contrib t d c then addD v (allocation t d c) else v) := by
  unfold innerStep contrib
  by_cases h1 : d ≠ c
  · rw [if_pos h1]
    by_cases h2 : t.get_user_balance d < 0 ∧ 0 < t.get_user_balance c
    · rw [if_pos h2]
      by_cases h3 : 0 < total_positive t d
      · rw [if_pos h3, entryVal_updEntry]
        cases entryVal mat d' c' with
        | none => rfl
        | some v =>
          rw [Option.map_some', Option.map_some']
          by_cases hd : d' = d
          · by_cases hc : c' = c
            · rw [if_pos ⟨hd, hc⟩, if_pos ⟨hd, hc, h1, h2.1, h2.2, h3⟩]
            · rw [if_neg (fun hcon => hc hcon.2), if_neg (fun hcon => hc hcon.2.1)]
          · rw [if_neg (fun hcon => hd hcon.1), if_neg (fun hcon => hd hcon.1)]
      · rw [if_neg h3]
        cases entryVal mat d' c' with
        | none => rfl
        | some v =>
          rw [Option.map_some', if_neg (fun hcon => h3 hcon.2.2.2.2.2)]
    · rw [if_neg h2]
      cases entryVal mat d' c' with
      | none => rfl
      | some v =>
        rw [Option.map_some', if_neg (fun hcon => h2 ⟨hcon.2.2.2.1, hcon.2.2.2.2.1⟩)]
  · rw [if_neg h1]
    cases entryVal mat d' c' with
    | none => rfl
    | some v =>
      rw [Option.map_some', if_neg (fun hcon => h1 hcon.2.2.1)]

open ExpenseManager in
theorem entryVal_innerFold (t : Transaction) (c : String) (ds : List String)
    (hds : ds.Nodup) (mat : List (String × List (String × ℚ))) (d' c' : String) :
    entryVal (ds.foldl (innerStep t c) mat) d' c' =
      (entryVal mat d' c').map (fun v =>
        if d' ∈ ds ∧ c' = c ∧ contrib t d' c then addD v (allocation t d' c) else v) := by
  induction ds generalizing mat with
  | nil =>
    rw [List.foldl_nil]
    cases entryVal mat d' c' with
    | none => rfl
    | some v =>
      rw [Option.map_some', if_neg (fun hcon => (List.not_mem_nil d') hcon.1)]
  | cons d₀ ds' ih =>
    rcases List.nodup_cons.mp hds with ⟨hd₀, hds'⟩
    rw [List.foldl_cons, ih hds', entryVal_innerStep, Option.map_map]
    cases entryVal mat d' c' with
    | none => rfl
    | some v =>
      rw [Option.map_some', Option.map_some']
      congr 1
      show (if d' ∈ ds' ∧ c' = c ∧ contrib t d' c then
          addD (if d' = d₀ ∧ c' = c ∧ contrib t d₀ c then addD v (allocation t d₀ c) else v)
            (allocation t d' c)
        else if d' = d₀ ∧ c' = c ∧ contrib t d₀ c then addD v (allocation t d₀ c) else v) =
        (if d' ∈ d₀ :: ds' ∧ c' = c ∧ contrib t d' c then addD v (allocation t d' c) else v)
      by_cases hd : d' = d₀
      · simp [hd, hd₀]
      · simp [hd]

open ExpenseManager in
theorem entryVal_outerStep (t : Transaction) (usFull : List String)
    (hfull : usFull.Nodup) (mat : List (String × List (String × ℚ)))
    (c₀ d' c' : String) :
    entryVal (outerStep t usFull mat c₀) d' c' =
      (entryVal mat d' c').map (fun v =>
        if d' ∈ usFull ∧ c' = c₀ ∧ contrib t d' c₀ then addD v (allocation t d' c₀)
        else v) := by
  unfold outerStep
  by_cases hg : t.get_user_balance c₀ ≠ 0
  · rw [if_pos hg]
    exact entryVal_innerFold t c₀ usFull hfull mat d' c'
  · rw [if_neg hg]
    push_neg at hg
    cases entryVal mat d' c' with
    | none => rfl
    | some v =>
      rw [Option.map_some', if_neg (fun hcon => by
        have hpos := hcon.2.2.2.2.1
        rw [hg] at hpos
        exact lt_irrefl 0 hpos)]

open ExpenseManager in
theorem entryVal_outerFold (t : Transaction) (usFull : List String)
    (hfull : usFull.Nodup) (cs : List String) (hcs : cs.Nodup)
    (mat : List (String × List (String × ℚ))) (d' c' : String) :
    entryVal (cs.foldl (outerStep t usFull) mat) d' c' =
      (entryVal mat d' c').map (fun v =>
        if d' ∈ usFull ∧ c' ∈ cs ∧ contrib t d' c' then addD v (allocation t d' c')
        else v) := by
  induction cs generalizing mat with
  | nil =>
    rw [List.foldl_nil]
    cases entryVal mat d' c' with
    | none => rfl
    | some v =>
      rw [Option.map_some', if_neg (fun hcon => (List.not_mem_nil c') hcon.2.1)]
  | cons c₀ cs' ih =>
    rcases List.nodup_cons.mp hcs with ⟨hc₀, hcs'⟩
    rw [List.foldl_cons, ih hcs', entryVal_outerStep t usFull hfull, Option.map_map]
    cases entryVal mat d' c' with
    | none => rfl
    | some v =>
      rw [Option.map_some', Option.map_some']
      congr 1
      show (if d' ∈ usFull ∧ c' ∈ cs' ∧ contrib t d' c' then
          addD (if d' ∈ usFull ∧ c' = c₀ ∧ contrib t d' c₀ then
            addD v (allocation t d' c₀) else v) (allocation t d' c')
        else if d' ∈ usFull ∧ c' = c₀ ∧ contrib t d' c₀ then
          addD v (allocation t d' c₀) else v) =
        (if d' ∈ usFull ∧ c' ∈ c₀ :: cs' ∧ contrib t d' c' then
          addD v (allocation t d' c') else v)
      by_cases hc : c' = c₀
      · simp [hc, hc₀]
      · simp [hc]

open ExpenseManager in
theorem entryVal_processTransaction (t : Transaction) (us : List String)
    (hus : us.Nodup) (mat : List (String × List (String × ℚ))) (d' c' : String) :
    entryVal (processTransaction us mat t) d' c' =
      (entryVal mat d' c').map (fun v =>
        if d' ∈ us ∧ c' ∈ us ∧ contrib t d' c' then addD v (allocation t d' c')
        else v) :=
  entryVal_outerFold t us hus us hus mat d' c'

theorem alookup_map_pair {α : Type} (us : List String) (f : String → α) (k : String) :
    alookup (us.map (fun u => (u, f u))) k = if k ∈ us then some (f k) else none := by
  induction us with
  | nil => rfl
  | cons u₀ t ih =>
    rw [List.map_cons, alookup_cons]
    by_cases hk : u₀ = k
    · subst hk
      rw [if_pos rfl, if_pos (List.mem_cons_self _ _)]
    · rw [if_neg hk, ih]
      by_cases hmem : k ∈ t
      · rw [if_pos hmem, if_pos (List.mem_cons_of_mem _ hmem)]
      · rw [if_neg hmem, if_neg (fun hcon => by
          rcases List.mem_cons.mp hcon with h | h
          · exact hk h.symm
          · exact hmem h)]

open ExpenseManager in
theorem entryVal_init (us : List String) (d c : String) :
    entryVal (initBalances us) d c =
      if d ∈ us ∧ c ∈ us ∧ c ≠ d then some 0 else none := by
  unfold entryVal initBalances
  rw [alookup_map_pair]
  by_cases hd : d ∈ us
  · rw [if_pos hd, Option.some_bind]
    rw [alookup_map_pair]
    by_cases hc : c ∈ us.filter (fun o => decide (o ≠ d))
    · rw [if_pos hc]
      rcases List.mem_filter.mp hc with ⟨hcus, hcd⟩
      rw [if_pos ⟨hd, hcus, by simpa using hcd⟩]
    · rw [if_neg hc, if_neg (fun hcon => hc (List.mem_filter.mpr
        ⟨hcon.2.1, by simpa using hcon.2.2⟩))]
  · rw [if_neg hd, if_neg (fun hcon => hd hcon.1)]
    rfl

open ExpenseManager in
theorem entryVal_calc_fold (us : List String) (hus : us.Nodup)
    (ts : List (String × Transaction)) (mat : List (String × List (String × ℚ)))
    (d c : String) (hd : d ∈ us) (hc : c ∈ us) (acc : ℚ)
    (hacc : entryVal mat d c = some acc) :
    entryVal (ts.foldl (fun mat p => processTransaction us mat p.2) mat) d c =
      some (ts.foldl (fun acc p =>
        if contrib p.2 d c then addD acc (allocation p.2 d c) else acc) acc) := by
  induction ts generalizing mat acc with
  | nil =>
    rw [List.foldl_nil, List.foldl_nil]
    exact hacc
  | cons p ts' ih =>
    rw [List.foldl_cons, List.foldl_cons]
    apply ih
    rw [entryVal_processTransaction p.2 us hus, hacc, Option.map_some']
    by_cases hcon : contrib p.2 d c
    · rw [if_pos ⟨hd, hc, hcon⟩, if_pos hcon]
    · rw [if_neg (fun h => hcon h.2.2), if_neg hcon]

open ExpenseManager in
theorem entryVal_fold_none (us : List String) (hus : us.Nodup)
    (ts : List (String × Transaction)) (mat : List (String × List (String × ℚ)))
    (d c : String) (h : entryVal mat d c = none) :
    entryVal (ts.foldl (fun mat p => processTransaction us mat p.2) mat) d c = none := by
  induction ts generalizing mat with
  | nil => exact h
  | cons p ts' ih =>
    rw [List.foldl_cons]
    apply ih
    rw [entryVal_processTransaction p.2 us hus, h]
    rfl

open ExpenseManager in
theorem entryVal_calc (m : ExpenseManager) (hus : m.userIds.Nodup) (d c : String)
    (hd : d ∈ m.userIds) (hc : c ∈ m.userIds) (hne : d ≠ c) :
    entryVal m._calculate_balances d c = some (entrySpec m d c) := by
  unfold ExpenseManager._calculate_balances entrySpec
  exact entryVal_calc_fold m.userIds hus m.transactions _ d c hd hc 0
    (by rw [entryVal_init, if_pos ⟨hd, hc, Ne.symm hne⟩])

open ExpenseManager in
theorem entryVal_calc_diag (m : ExpenseManager) (hus : m.userIds.Nodup) (d : String) :
    entryVal m._calculate_balances d d = none := by
  unfold ExpenseManager._calculate_balances
  apply entryVal_fold_none m.userIds hus
  rw [entryVal_init, if_neg (fun hcon => hcon.2.2 rfl)]

open ExpenseManager in
theorem entryVal_calc_nonuser (m : ExpenseManager) (hus : m.userIds.Nodup)
    (d c : String) (h : d ∉ m.userIds ∨ c ∉ m.userIds) :
    entryVal m._calculate_balances d c = none := by
  unfold ExpenseManager._calculate_balances
  apply entryVal_fold_none m.userIds hus
  rw [entryVal_init, if_neg (fun hcon => by
    rcases h with h | h
    · exact h hcon.1
    · exact h hcon.2.1)]

open ExpenseManager in
theorem allocation_nonneg (t : Transaction) (d c : String) (h : contrib t d c) :
    0 ≤ allocation t d c := by
  unfold allocation divD
  rw [if_neg (ne_of_gt h.2.2.2)]
  unfold mulD
  apply roundQ_nonneg
  apply mul_nonneg
  · apply roundQ_nonneg
    exact div_nonneg (le_of_lt h.2.2.1) (le_of_lt h.2.2.2)
  · exact abs_nonneg _

theorem entrySpec_nonneg (m : ExpenseManager) (d c : String) :
    0 ≤ entrySpec m d c := by
  unfold entrySpec
  have key : ∀ (ts : List (String × Transaction)) (acc : ℚ), 0 ≤ acc →
      0 ≤ ts.foldl (fun acc p =>
        if contrib p.2 d c then addD acc (ExpenseManager.allocation p.2 d c)
        else acc) acc := by
    intro ts
    induction ts with
    | nil => intro acc h; exact h
    | cons p ts' ih =>
      intro acc h
      rw [List.foldl_cons]
      apply ih
      by_cases hcon : contrib p.2 d c
      · rw [if_pos hcon]
        unfold addD
        apply roundQ_nonneg
        exact add_nonneg h (allocation_nonneg p.2 d c hcon)
      · rw [if_neg hcon]
        exact h
  exact key m.transactions 0 le_rfl

theorem alookup_isSome {α : Type} (ps : List (String × α)) (u : String)
    (h : u ∈ keys ps) : (alookup ps u).isSome := by
  induction ps with
  | nil => cases h
  | cons p t ih =>
    obtain ⟨k₀, v₀⟩ := p
    rw [alookup_cons]
    by_cases he : k₀ = u
    · rw [if_pos he]
      rfl
    · rw [if_neg he]
      apply ih
      rw [keys_cons] at h
      rcases List.mem_cons.mp h with h | h
      · exact absurd h.symm he
      · exact h

theorem alookup_filterMap (us : List String) (F : String → Option (String × ℚ))
    (hF : ∀ o p, F o = some p → p.1 = o) (hus : us.Nodup) (k : String) :
    alookup (us.filterMap F) k = if k ∈ us then (F k).map Prod.snd else none := by
  induction us with
  | nil => rfl
  | cons u₀ t ih =>
    rcases List.nodup_cons.mp hus with ⟨hu₀, ht⟩
    rw [List.filterMap_cons]
    cases hF₀ : F u₀ with
    | none =>
      rw [ih ht]
      by_cases hk : k = u₀
      · subst hk
        rw [if_neg hu₀, if_pos (List.mem_cons_self _ _), hF₀]
        rfl
      · by_cases hmem : k ∈ t
        · rw [if_pos hmem, if_pos (List.mem_cons_of_mem _ hmem)]
        · rw [if_neg hmem, if_neg (fun hcon => by
            rcases List.mem_cons.mp hcon with h | h
            · exact hk h
            · exact hmem h)]
    | some p =>
      obtain ⟨pk, pv⟩ := p
      have hp1 : pk = u₀ := hF u₀ (pk, pv) hF₀
      rw [alookup_cons]
      by_cases hk : k = u₀
      · subst hk
        rw [if_pos hp1, if_pos (List.mem_cons_self _ _), hF₀]
        rfl
      · rw [if_neg (fun hcon => hk (hp1 ▸ hcon).symm), ih ht]
        by_cases hmem : k ∈ t
        · rw [if_pos hmem, if_pos (List.mem_cons_of_mem _ hmem)]
        · rw [if_neg hmem, if_neg (fun hcon => by
            rcases List.mem_cons.mp hcon with h | h
            · exact hk h
            · exact hmem h)]

theorem subD_neg (a b : ℚ) : -(subD a b) = subD b a := by
  unfold subD
  rw [← roundQ_neg]
  congr 1
  ring

open ExpenseManager in
theorem row_entry_getD (B : List (String × List (String × ℚ))) (u other : String) :
    (alookup ((alookup B u).getD []) other).getD 0 = (entryVal B u other).getD 0 := by
  unfold entryVal
  cases alookup B u with
  | none => rfl
  | some row => rfl

open ExpenseManager in
/-- Each kept `net` entry of `get_user_balance`, over the freshly
computed matrix: present exactly when the two opposite matrix entries
differ, with value their (decimal) difference. -/
theorem netEntry_calc (m : ExpenseManager) (hus : m.userIds.Nodup)
    (u other : String) (hu : u ∈ m.userIds) (hother : other ∈ m.userIds)
    (hne : other ≠ u) :
    netEntry m._calculate_balances u other =
      if entrySpec m other u ≠ entrySpec m u other then
        some (other, subD (entrySpec m other u) (entrySpec m u other))
      else none := by
  have hw : owesAmount m._calculate_balances u other = entrySpec m u other := by
    unfold owesAmount
    rw [row_entry_getD, entryVal_calc m hus u other hu hother (fun h => hne h.symm)]
    show (if 0 < entrySpec m u other then entrySpec m u other else 0) = _
    rcases lt_or_eq_of_le (entrySpec_nonneg m u other) with h | h
    · rw [if_pos h]
    · rw [if_neg (by rw [← h]; exact lt_irrefl 0), ← h]
  have ho : owedAmount m._calculate_balances u other = entrySpec m other u := by
    unfold owedAmount
    rw [row_entry_getD, entryVal_calc m hus other u hother hu hne]
    show (if 0 < entrySpec m other u then entrySpec m other u else 0) = _
    rcases lt_or_eq_of_le (entrySpec_nonneg m other u) with h | h
    · rw [if_pos h]
    · rw [if_neg (by rw [← h]; exact lt_irrefl 0), ← h]
  unfold netEntry
  rw [if_neg hne, hw, ho]
  rcases lt_trichotomy (entrySpec m u other) (entrySpec m other u) with h | h | h
  · rw [if_pos h, if_pos (ne_of_gt h)]
  · rw [if_neg (by rw [h]; exact lt_irrefl _), if_neg (by rw [h]; exact lt_irrefl _),
      if_neg (by rw [h]; exact fun hcon => hcon rfl)]
  · rw [if_neg (not_lt.mpr (le_of_lt h)), if_pos h, if_pos (ne_of_lt h), subD_neg]

open ExpenseManager in
theorem get_balances_snd (m : ExpenseManager)
    (hcoh : m.cache_valid = true → m.balance_cache = m._calculate_balances) :
    m.get_balances.2 = m._calculate_balances := by
  unfold ExpenseManager.get_balances
  by_cases h : m.cache_valid = true
  · rw [if_pos h]
    exact hcoh h
  · rw [if_neg h]

theorem abs_list_sum_le (l : List ℚ) : |l.sum| ≤ (l.map (fun x => |x|)).sum := by
  induction l with
  | nil => simp
  | cons x t ih =>
    rw [List.sum_cons, List.map_cons, List.sum_cons]
    calc |x + t.sum| ≤ |x| + |t.sum| := abs_add x t.sum
      _ ≤ |x| + (t.map (fun x => |x|)).sum := by linarith

theorem sum_map_sub (us : List String) (f g : String → ℚ) :
    (us.map (fun u => f u - g u)).sum = (us.map f).sum - (us.map g).sum := by
  induction us with
  | nil => simp
  | cons u t ih =>
    rw [List.map_cons, List.sum_cons, List.map_cons, List.sum_cons,
      List.map_cons, List.sum_cons, ih]
    ring

theorem sum_le_card_mul (us : List String) (h : String → ℚ) (B : ℚ)
    (hb : ∀ u ∈ us, h u ≤ B) : (us.map h).sum ≤ us.length * B := by
  induction us with
  | nil => simp
  | cons u t ih =>
    rw [List.map_cons, List.sum_cons, List.length_cons]
    have h1 := hb u (List.mem_cons_self _ _)
    have h2 := ih (fun v hv => hb v (List.mem_cons_of_mem _ hv))
    push_cast
    linarith

theorem abs_lookup_le (ps : List (String × ℚ)) (u : String) :
    |(alookup ps u).getD 0| ≤ (ps.map (fun p => |p.2|)).sum := by
  have hnn : 0 ≤ (ps.map (fun p => |p.2|)).sum := by
    apply List.sum_nonneg
    intro x hx
    rcases List.mem_map.mp hx with ⟨p, _, rfl⟩
    exact abs_nonneg _
  cases hlk : alookup ps u with
  | none => simpa using hnn
  | some v =>
    have hmem := alookup_mem ps u v hlk
    show |v| ≤ _
    apply List.single_le_sum (fun x hx => ?_) _
      (List.mem_map_of_mem (fun p => |p.2|) hmem)
    rcases List.mem_map.mp hx with ⟨p, _, rfl⟩
    exact abs_nonneg _

theorem sum_map_indicator (us parts : List String) (s : ℚ) (hus : us.Nodup)
    (hp : parts.Nodup) (hsub : ∀ p ∈ parts, p ∈ us) :
    (us.map (fun u => if u ∈ parts then s else 0)).sum = parts.length * s := by
  induction parts with
  | nil => simp
  | cons p₀ rest ih =>
    rcases List.nodup_cons.mp hp with ⟨hp₀, hrest⟩
    have hpoint : ∀ u, (if u ∈ p₀ :: rest then s else 0) =
        if u = p₀ then s else (if u ∈ rest then s else 0) := by
      intro u
      by_cases h : u = p₀
      · rw [if_pos (h ▸ List.mem_cons_self p₀ rest), if_pos h]
      · by_cases h2 : u ∈ rest
        · rw [if_pos (List.mem_cons_of_mem _ h2), if_neg h, if_pos h2]
        · rw [if_neg h, if_neg h2, if_neg (fun hcon => by
            rcases List.mem_cons.mp hcon with hc | hc
            · exact h hc
            · exact h2 hc)]
    rw [List.map_congr_left (fun u _ => hpoint u)]
    rw [sum_map_ite us p₀ s _ hus (hsub p₀ (List.mem_cons_self _ _)) (by rw [if_neg hp₀])]
    rw [ih hrest (fun p hp => hsub p (List.mem_cons_of_mem _ hp))]
    rw [List.length_cons]
    push_cast
    ring

theorem alookup_map_snd (ps : List (String × ℚ)) (f : ℚ → ℚ) (u : String) :
    alookup (ps.map (fun p => (p.1, f p.2))) u = (alookup ps u).map f := by
  induction ps with
  | nil => rfl
  | cons p t ih =>
    obtain ⟨k, v⟩ := p
    rw [List.map_cons]
    show alookup ((k, f v) :: _) u = _
    rw [alookup_cons, alookup_cons]
    by_cases h : k = u
    · rw [if_pos h, if_pos h]
      rfl
    · rw [if_neg h, if_neg h, ih]

theorem keys_map_snd (ps : List (String × ℚ)) (f : ℚ → ℚ) :
    keys (ps.map (fun p => (p.1, f p.2))) = keys ps := by
  unfold keys
  rw [List.map_map]
  rfl

theorem sum_alookup_map (us : List String) (ps : List (String × ℚ)) (f : ℚ → ℚ)
    (hus : us.Nodup) (hps : (keys ps).Nodup) (hsub : ∀ k ∈ keys ps, k ∈ us) :
    (us.map (fun u => ((alookup ps u).map f).getD 0)).sum =
      (ps.map (fun p => f p.2)).sum := by
  have h1 : (us.map (fun u => ((alookup ps u).map f).getD 0)).sum =
      (us.map (fun u => (alookup (ps.map (fun p => (p.1, f p.2))) u).getD 0)).sum := by
    apply congrArg
    apply List.map_congr_left
    intro u _
    rw [alookup_map_snd]
  rw [h1, sum_alookup us _ hus (by rw [keys_map_snd]; exact hps)
    (fun k hk => hsub k (by rw [keys_map_snd] at hk; exact hk))]
  rw [List.map_map]
  rfl

theorem validate_ok_perc_bound (t : Transaction) (hval : t.validate = .ok ())
    (hst : t.split_type = .percentage) (hsd : t.split_details ≠ []) :
    |subD (sumD (t.split_details.map Prod.snd)) 100| ≤ eps := by
  unfold Transaction.validate at hval
  cases hfind : t.payers.find? (fun p => decide (p.2 ≤ 0)) with
  | some p =>
    rw [hfind] at hval
    cases hval
  | none =>
    rw [hfind] at hval
    by_contra hlt
    rw [if_pos ⟨hst, hsd, not_le.mp hlt⟩] at hval
    cases hval

theorem validate_ok_exact_bound (t : Transaction) (hval : t.validate = .ok ())
    (hst : t.split_type = .exact) (hsd : t.split_details ≠ []) :
    |subD (sumD (t.split_details.map Prod.snd)) t.total_amount| ≤ eps := by
  unfold Transaction.validate at hval
  cases hfind : t.payers.find? (fun p => decide (p.2 ≤ 0)) with
  | some p =>
    rw [hfind] at hval
    cases hval
  | none =>
    rw [hfind] at hval
    rw [if_neg (fun hcon => by rw [hst] at hcon; cases hcon.1)] at hval
    by_contra hlt
    rw [if_pos ⟨hst, hsd, not_le.mp hlt⟩] at hval
    cases hval

theorem den_one_mul (a b : ℚ) (ha : a.den = 1) (hb : b.den = 1) : (a * b).den = 1 := by
  have ha' := (Rat.den_eq_one_iff a).mp ha
  have hb' := (Rat.den_eq_one_iff b).mp hb
  have hab : a * b = ((a.num * b.num : ℤ) : ℚ) := by
    push_cast
    rw [ha', hb']
  rw [hab, Rat.den_intCast]

theorem den_pow_ten (k : ℕ) : ((10:ℚ) ^ k).den = 1 := by
  have : (10:ℚ) ^ k = ((10 ^ k : ℤ) : ℚ) := by push_cast; rfl
  rw [this, Rat.den_intCast]

theorem den_one_scale_up (x : ℚ) (e f : ℕ) (h : (x * 10 ^ e).den = 1) (hef : e ≤ f) :
    (x * 10 ^ f).den = 1 := by
  have hx : x * 10 ^ f = (x * 10 ^ e) * 10 ^ (f - e) := by
    rw [mul_assoc, ← pow_add, Nat.add_sub_cancel' hef]
  rw [hx]
  exact den_one_mul _ _ h (den_pow_ten _)

theorem den_one_sub (a b : ℚ) (e : ℕ) (ha : (a * 10 ^ e).den = 1)
    (hb : (b * 10 ^ e).den = 1) : ((a - b) * 10 ^ e).den = 1 := by
  have h1 : ((-(b * 10 ^ e)) * 10 ^ 0).den = 1 := by
    rw [pow_zero, mul_one, Rat.den_neg_eq_den]
    exact hb
  have h2 : ((a * 10 ^ e) * 10 ^ 0).den = 1 := by
    rw [pow_zero, mul_one]
    exact ha
  have h3 := den_one_add (a * 10 ^ e) (-(b * 10 ^ e)) 0 h2 h1
  rw [pow_zero, mul_one] at h3
  rw [show (a - b) * 10 ^ e = a * 10 ^ e + -(b * 10 ^ e) from by ring]
  exact h3

theorem den_one_list_sum (l : List ℚ) (e : ℕ) (h : ∀ x ∈ l, (x * 10 ^ e).den = 1) :
    (l.sum * 10 ^ e).den = 1 := by
  induction l with
  | nil => simp
  | cons x t ih =>
    rw [List.sum_cons, show (x + t.sum) * 10 ^ e = x * 10 ^ e + t.sum * 10 ^ e from by
      ring]
    have hh := den_one_add (x * 10 ^ e) (t.sum * 10 ^ e) 0
    simp only [pow_zero, mul_one] at hh
    exact hh (h x (List.mem_cons_self _ _))
      (ih (fun y hy => h y (List.mem_cons_of_mem _ hy)))

theorem subD_exact_den (a b : ℚ) (e : ℕ) (ha : (a * 10 ^ e).den = 1)
    (hb : (b * 10 ^ e).den = 1) (habs : |a - b| * 10 ^ e ≤ 10 ^ 28) :
    subD a b = a - b :=
  roundQ_eq_self_den (a - b) e (den_one_sub a b e ha hb) habs

/-- Share characterization for PERCENTAGE splits whose detail keys all
name participants. -/
theorem get_user_share_perc (t : Transaction) (hst : t.split_type = .percentage)
    (hsub : ∀ k ∈ keys t.split_details, k ∈ t.participants) (u : String) :
    t.get_user_share u =
      ((alookup t.split_details u).map
        (fun p => mulD (divD p 100) t.total_amount)).getD 0 := by
  unfold Transaction.get_user_share
  by_cases hu : u ∈ t.participants
  · rw [if_neg (not_not_intro hu), hst]
    cases hlk : alookup t.split_details u with
    | none => rfl
    | some p => rfl
  · rw [if_pos hu]
    cases hlk : alookup t.split_details u with
    | none => rfl
    | some p =>
      exfalso
      apply hu
      apply hsub
      exact List.mem_map_of_mem Prod.fst (alookup_mem _ _ _ hlk)

/-- Share characterization for EXACT splits whose detail keys all name
participants. -/
theorem get_user_share_exact (t : Transaction) (hst : t.split_type = .exact)
    (hsub : ∀ k ∈ keys t.split_details, k ∈ t.participants) (u : String) :
    t.get_user_share u = ((alookup t.split_details u).map id).getD 0 := by
  unfold Transaction.get_user_share
  by_cases hu : u ∈ t.participants
  · rw [if_neg (not_not_intro hu), hst]
    cases hlk : alookup t.split_details u with
    | none => rfl
    | some p => rfl
  · rw [if_pos hu]
    cases hlk : alookup t.split_details u with
    | none => rfl
    | some p =>
      exfalso
      apply hu
      apply hsub
      exact List.mem_map_of_mem Prod.fst (alookup_mem _ _ _ hlk)

/-- Share characterization for EQUAL splits. -/
theorem get_user_share_equal_ite (t : Transaction) (hst : t.split_type = .equal)
    (u : String) :
    t.get_user_share u =
      if u ∈ t.participants then
        roundQ (t.total_amount / (t.participants.length : ℚ))
      else 0 := by
  by_cases hu : u ∈ t.participants
  · rw [if_pos hu]
    exact get_user_share_equal t hst u hu
  · rw [if_neg hu]
    unfold Transaction.get_user_share
    rw [if_pos hu]

theorem conservation_exact (t : Transaction) (hval : t.validate = .ok ())
    (hkeys : (keys t.payers).Nodup)
    (hden : ∀ p ∈ t.payers, (p.2 * 10 ^ 4).den = 1)
    (hsdden : ∀ p ∈ t.split_details, (p.2 * 10 ^ 4).den = 1)
    (hsdkeys : (keys t.split_details).Nodup)
    (hsdsub : ∀ k ∈ keys t.split_details, k ∈ t.participants)
    (hst : t.split_type = .exact) (hsd : t.split_details ≠ [])
    (hbp : (t.payers.map (fun p => |p.2|)).sum ≤ 10 ^ 15)
    (hbs : (t.split_details.map (fun p => |p.2|)).sum ≤ 10 ^ 15) :
    |(t.allUsers.map t.get_user_balance).sum| ≤ eps := by
  have hus : t.allUsers.Nodup := List.nodup_dedup _
  have hpaysub : ∀ k ∈ keys t.payers, k ∈ t.allUsers := fun k hk =>
    List.mem_dedup.mpr (List.mem_append_left _ hk)
  have hpartsub : ∀ p ∈ t.participants, p ∈ t.allUsers := fun p hp =>
    List.mem_dedup.mpr (List.mem_append_right _ hp)
  have hsdus : ∀ k ∈ keys t.split_details, k ∈ t.allUsers := fun k hk =>
    hpartsub k (hsdsub k hk)
  have hdenv : ∀ x ∈ t.payers.map Prod.snd, (x * 10 ^ 4).den = 1 := by
    intro x hx
    rcases List.mem_map.mp hx with ⟨p, hp, rfl⟩
    exact hden p hp
  have habs_map : (t.payers.map Prod.snd).map (fun x => |x|) =
      t.payers.map (fun p => |p.2|) := by
    rw [List.map_map]
    rfl
  have hsdenv : ∀ x ∈ t.split_details.map Prod.snd, (x * 10 ^ 4).den = 1 := by
    intro x hx
    rcases List.mem_map.mp hx with ⟨p, hp, rfl⟩
    exact hsdden p hp
  have hsdabs_map : (t.split_details.map Prod.snd).map (fun x => |x|) =
      t.split_details.map (fun p => |p.2|) := by
    rw [List.map_map]
    rfl
  have htot : t.total_amount = (t.payers.map Prod.snd).sum := by
    unfold Transaction.total_amount
    exact sumD_exact _ hdenv (by
      rw [habs_map]
      exact le_trans hbp (by norm_num))
  have habsT : |t.total_amount| ≤ 10 ^ 15 := by
    rw [htot]
    calc |(t.payers.map Prod.snd).sum|
        ≤ ((t.payers.map Prod.snd).map (fun x => |x|)).sum := abs_list_sum_le _
      _ = (t.payers.map (fun p => |p.2|)).sum := by rw [habs_map]
      _ ≤ 10 ^ 15 := hbp
  have hTden : (t.total_amount * 10 ^ 4).den = 1 := by
    rw [htot]
    exact den_one_list_sum _ 4 hdenv
  have hpay_den : ∀ u, (t.get_user_payment u * 10 ^ 4).den = 1 := by
    intro u
    unfold Transaction.get_user_payment
    cases hlk : alookup t.payers u with
    | none =>
      show ((0:ℚ) * 10 ^ 4).den = 1
      simp
    | some v => exact hden (u, v) (alookup_mem _ _ _ hlk)
  have hpay_abs : ∀ u, |t.get_user_payment u| ≤ 10 ^ 15 := by
    intro u
    exact le_trans (abs_lookup_le t.payers u) hbp
  have hshare_eq : ∀ u, t.get_user_share u =
      ((alookup t.split_details u).map id).getD 0 := get_user_share_exact t hst hsdsub
  have hshare_den : ∀ u, (t.get_user_share u * 10 ^ 4).den = 1 := by
    intro u
    rw [hshare_eq u]
    cases hlk : alookup t.split_details u with
    | none =>
      show ((0:ℚ) * 10 ^ 4).den = 1
      simp
    | some p => exact hsdden (u, p) (alookup_mem _ _ _ hlk)
  have hshare_abs : ∀ u, |t.get_user_share u| ≤ 10 ^ 15 := by
    intro u
    rw [hshare_eq u]
    cases hlk : alookup t.split_details u with
    | none =>
      show |(0:ℚ)| ≤ _
      norm_num
    | some p =>
      show |p| ≤ _
      calc |p| ≤ (t.split_details.map (fun q => |q.2|)).sum := by
            apply List.single_le_sum (fun x hx => ?_) _
              (List.mem_map_of_mem (fun q => |q.2|) (alookup_mem _ _ _ hlk))
            rcases List.mem_map.mp hx with ⟨q, _, rfl⟩
            exact abs_nonneg _
        _ ≤ 10 ^ 15 := hbs
  have hbal : ∀ u, t.get_user_balance u =
      t.get_user_payment u - t.get_user_share u := by
    intro u
    unfold Transaction.get_user_balance
    apply subD_exact_den _ _ 4 (hpay_den u) (hshare_den u)
    calc |t.get_user_payment u - t.get_user_share u| * 10 ^ 4
        ≤ (|t.get_user_payment u| + |t.get_user_share u|) * 10 ^ 4 :=
          mul_le_mul_of_nonneg_right (abs_sub _ _) (by positivity)
      _ ≤ (10 ^ 15 + 10 ^ 15) * 10 ^ 4 := by
          apply mul_le_mul_of_nonneg_right _ (by positivity)
          linarith [hpay_abs u, hshare_abs u]
      _ ≤ 10 ^ 28 := by norm_num
  have hpaysum : (t.allUsers.map t.get_user_payment).sum = t.total_amount := by
    rw [show t.allUsers.map t.get_user_payment =
      t.allUsers.map (fun u => (alookup t.payers u).getD 0) from rfl]
    rw [sum_alookup _ _ hus hkeys hpaysub, htot]
  have hsharesum : (t.allUsers.map t.get_user_share).sum =
      (t.split_details.map Prod.snd).sum := by
    rw [List.map_congr_left (fun u _ => hshare_eq u)]
    rw [sum_alookup_map _ _ id hus hsdkeys hsdus]
    simp
  have hSabs : |(t.split_details.map Prod.snd).sum| ≤ 10 ^ 15 := by
    calc |(t.split_details.map Prod.snd).sum|
        ≤ ((t.split_details.map Prod.snd).map (fun x => |x|)).sum := abs_list_sum_le _
      _ = (t.split_details.map (fun p => |p.2|)).sum := by rw [hsdabs_map]
      _ ≤ 10 ^ 15 := hbs
  have hS : sumD (t.split_details.map Prod.snd) =
      (t.split_details.map Prod.snd).sum :=
    sumD_exact _ hsdenv (by
      rw [hsdabs_map]
      exact le_trans hbs (by norm_num))
  have hval_bound := validate_ok_exact_bound t hval hst hsd
  rw [hS] at hval_bound
  rw [subD_exact_den _ _ 4 (den_one_list_sum _ 4 hsdenv) hTden (by
    calc |(t.split_details.map Prod.snd).sum - t.total_amount| * 10 ^ 4
        ≤ (|(t.split_details.map Prod.snd).sum| + |t.total_amount|) * 10 ^ 4 :=
          mul_le_mul_of_nonneg_right (abs_sub _ _) (by positivity)
      _ ≤ (10 ^ 15 + 10 ^ 15) * 10 ^ 4 := by
          apply mul_le_mul_of_nonneg_right _ (by positivity)
          linarith
      _ ≤ 10 ^ 28 := by norm_num)] at hval_bound
  calc |(t.allUsers.map t.get_user_balance).sum|
      = |(t.allUsers.map (fun u =>
          t.get_user_payment u - t.get_user_share u)).sum| := by
        rw [List.map_congr_left (fun u _ => hbal u)]
    _ = |(t.allUsers.map t.get_user_payment).sum -
        (t.allUsers.map t.get_user_share).sum| := by rw [sum_map_sub]
    _ = |t.total_amount - (t.split_details.map Prod.snd).sum| := by
        rw [hpaysum, hsharesum]
    _ = |(t.split_details.map Prod.snd).sum - t.total_amount| := abs_sub_comm _ _
    _ ≤ eps := hval_bound

theorem conservation_perc (t : Transaction) (hval : t.validate = .ok ())
    (hkeys : (keys t.payers).Nodup)
    (hden : ∀ p ∈ t.payers, (p.2 * 10 ^ 4).den = 1)
    (hsdden : ∀ p ∈ t.split_details, (p.2 * 10 ^ 4).den = 1)
    (hsdkeys : (keys t.split_details).Nodup)
    (hsdsub : ∀ k ∈ keys t.split_details, k ∈ t.participants)
    (hst : t.split_type = .percentage) (hsd : t.split_details ≠ [])
    (hbp : (t.payers.map (fun p => |p.2|)).sum ≤ 99)
    (hbs : (t.split_details.map (fun p => |p.2|)).sum ≤ 10 ^ 6) :
    |(t.allUsers.map t.get_user_balance).sum| ≤ eps := by
  have hus : t.allUsers.Nodup := List.nodup_dedup _
  have hpaysub : ∀ k ∈ keys t.payers, k ∈ t.allUsers := fun k hk =>
    List.mem_dedup.mpr (List.mem_append_left _ hk)
  have hpartsub : ∀ p ∈ t.participants, p ∈ t.allUsers := fun p hp =>
    List.mem_dedup.mpr (List.mem_append_right _ hp)
  have hsdus : ∀ k ∈ keys t.split_details, k ∈ t.allUsers := fun k hk =>
    hpartsub k (hsdsub k hk)
  have hdenv : ∀ x ∈ t.payers.map Prod.snd, (x * 10 ^ 4).den = 1 := by
    intro x hx
    rcases List.mem_map.mp hx with ⟨p, hp, rfl⟩
    exact hden p hp
  have habs_map : (t.payers.map Prod.snd).map (fun x => |x|) =
      t.payers.map (fun p => |p.2|) := by
    rw [List.map_map]
    rfl
  have hsdenv : ∀ x ∈ t.split_details.map Prod.snd, (x * 10 ^ 4).den = 1 := by
    intro x hx
    rcases List.mem_map.mp hx with ⟨p, hp, rfl⟩
    exact hsdden p hp
  have hsdabs_map : (t.split_details.map Prod.snd).map (fun x => |x|) =
      t.split_details.map (fun p => |p.2|) := by
    rw [List.map_map]
    rfl
  have htot : t.total_amount = (t.payers.map Prod.snd).sum := by
    unfold Transaction.total_amount
    exact sumD_exact _ hdenv (by
      rw [habs_map]
      exact le_trans hbp (by norm_num))
  have habsT : |t.total_amount| ≤ 99 := by
    rw [htot]
    calc |(t.payers.map Prod.snd).sum|
        ≤ ((t.payers.map Prod.snd).map (fun x => |x|)).sum := abs_list_sum_le _
      _ = (t.payers.map (fun p => |p.2|)).sum := by rw [habs_map]
      _ ≤ 99 := hbp
  have hTden : (t.total_amount * 10 ^ 4).den = 1 := by
    rw [htot]
    exact den_one_list_sum _ 4 hdenv
  have hpay_den : ∀ u, (t.get_user_payment u * 10 ^ 4).den = 1 := by
    intro u
    unfold Transaction.get_user_payment
    cases hlk : alookup t.payers u with
    | none =>
      show ((0:ℚ) * 10 ^ 4).den = 1
      simp
    | some v => exact hden (u, v) (alookup_mem _ _ _ hlk)
  have hpay_abs : ∀ u, |t.get_user_payment u| ≤ 99 := by
    intro u
    exact le_trans (abs_lookup_le t.payers u) hbp
  have hsd_abs : ∀ p ∈ t.split_details, |p.2| ≤ 10 ^ 6 := by
    intro p hp
    calc |p.2| ≤ (t.split_details.map (fun q => |q.2|)).sum := by
          apply List.single_le_sum (fun x hx => ?_) _
            (List.mem_map_of_mem (fun q => |q.2|) hp)
          rcases List.mem_map.mp hx with ⟨q, _, rfl⟩
          exact abs_nonneg _
      _ ≤ 10 ^ 6 := hbs
  have hf : ∀ p ∈ t.split_details,
      mulD (divD p.2 100) t.total_amount = p.2 / 100 * t.total_amount := by
    intro p hp
    have hdiv : divD p.2 100 = p.2 / 100 := by
      unfold divD
      rw [if_neg (by norm_num)]
      apply roundQ_eq_self_den _ 6
      · rw [show p.2 / 100 * 10 ^ 6 = p.2 * 10 ^ 4 from by ring]
        exact hsdden p hp
      · rw [show |p.2 / 100| = |p.2| / 100 from by rw [abs_div]; norm_num]
        calc |p.2| / 100 * 10 ^ 6 ≤ 10 ^ 6 / 100 * 10 ^ 6 := by
              have := hsd_abs p hp
              gcongr
          _ ≤ 10 ^ 28 := by norm_num
    rw [hdiv]
    unfold mulD
    apply roundQ_eq_self_den _ 10
    · rw [show p.2 / 100 * t.total_amount * 10 ^ 10 =
        (p.2 * 10 ^ 4) * (t.total_amount * 10 ^ 4) from by ring]
      exact den_one_mul _ _ (hsdden p hp) hTden
    · rw [abs_mul, abs_div]
      calc |p.2| / |(100:ℚ)| * |t.total_amount| * 10 ^ 10
          ≤ 10 ^ 6 / 100 * 99 * 10 ^ 10 := by
            have h1 := hsd_abs p hp
            have h2 : |(100:ℚ)| = 100 := by norm_num
            rw [h2]
            gcongr
        _ ≤ 10 ^ 28 := by norm_num
  have hshare_eq : ∀ u, t.get_user_share u =
      ((alookup t.split_details u).map
        (fun p => mulD (divD p 100) t.total_amount)).getD 0 :=
    get_user_share_perc t hst hsdsub
  have hshare_den : ∀ u, (t.get_user_share u * 10 ^ 10).den = 1 := by
    intro u
    rw [hshare_eq u]
    cases hlk : alookup t.split_details u with
    | none =>
      show ((0:ℚ) * 10 ^ 10).den = 1
      simp
    | some p =>
      show (mulD (divD p 100) t.total_amount * 10 ^ 10).den = 1
      rw [hf (u, p) (alookup_mem _ _ _ hlk)]
      rw [show (u, p).2 / 100 * t.total_amount * 10 ^ 10 =
        ((u, p).2 * 10 ^ 4) * (t.total_amount * 10 ^ 4) from by ring]
      exact den_one_mul _ _ (hsdden (u, p) (alookup_mem _ _ _ hlk)) hTden
  have hshare_abs : ∀ u, |t.get_user_share u| ≤ 10 ^ 6 := by
    intro u
    rw [hshare_eq u]
    cases hlk : alookup t.split_details u with
    | none =>
      show |(0:ℚ)| ≤ _
      norm_num
    | some p =>
      show |mulD (divD p 100) t.total_amount| ≤ _
      rw [hf (u, p) (alookup_mem _ _ _ hlk)]
      show |p / 100 * t.total_amount| ≤ _
      rw [abs_mul, abs_div]
      calc |p| / |(100:ℚ)| * |t.total_amount| ≤ 10 ^ 6 / 100 * 99 := by
            have h1 := hsd_abs (u, p) (alookup_mem _ _ _ hlk)
            have h2 : |(100:ℚ)| = 100 := by norm_num
            rw [h2]
            gcongr
        _ ≤ 10 ^ 6 := by norm_num
  have hbal : ∀ u, t.get_user_balance u =
      t.get_user_payment u - t.get_user_share u := by
    intro u
    unfold Transaction.get_user_balance
    apply subD_exact_den _ _ 10 (den_one_scale_up _ 4 10 (hpay_den u) (by norm_num))
      (hshare_den u)
    calc |t.get_user_payment u - t.get_user_share u| * 10 ^ 10
        ≤ (|t.get_user_payment u| + |t.get_user_share u|) * 10 ^ 10 :=
          mul_le_mul_of_nonneg_right (abs_sub _ _) (by positivity)
      _ ≤ (99 + 10 ^ 6) * 10 ^ 10 := by
          apply mul_le_mul_of_nonneg_right _ (by positivity)
          linarith [hpay_abs u, hshare_abs u]
      _ ≤ 10 ^ 28 := by norm_num
  have hpaysum : (t.allUsers.map t.get_user_payment).sum = t.total_amount := by
    rw [show t.allUsers.map t.get_user_payment =
      t.allUsers.map (fun u => (alookup t.payers u).getD 0) from rfl]
    rw [sum_alookup _ _ hus hkeys hpaysub, htot]
  have hsharesum : (t.allUsers.map t.get_user_share).sum =
      (t.split_details.map Prod.snd).sum * (t.total_amount / 100) := by
    rw [List.map_congr_left (fun u _ => hshare_eq u)]
    rw [sum_alookup_map _ _ (fun p => mulD (divD p 100) t.total_amount)
      hus hsdkeys hsdus]
    rw [List.map_congr_left (fun p hp => hf p hp)]
    rw [show t.split_details.map (fun p => p.2 / 100 * t.total_amount) =
      t.split_details.map (fun p => p.2 * (t.total_amount / 100)) from
      List.map_congr_left (fun p _ => by ring)]
    exact List.sum_map_mul_right _ _ _
  have hSabs : |(t.split_details.map Prod.snd).sum| ≤ 10 ^ 6 := by
    calc |(t.split_details.map Prod.snd).sum|
        ≤ ((t.split_details.map Prod.snd).map (fun x => |x|)).sum := abs_list_sum_le _
      _ = (t.split_details.map (fun p => |p.2|)).sum := by rw [hsdabs_map]
      _ ≤ 10 ^ 6 := hbs
  have hS : sumD (t.split_details.map Prod.snd) =
      (t.split_details.map Prod.snd).sum :=
    sumD_exact _ hsdenv (by
      rw [hsdabs_map]
      exact le_trans hbs (by norm_num))
  have hval_bound := validate_ok_perc_bound t hval hst hsd
  rw [hS] at hval_bound
  rw [subD_exact_den _ 100 4 (den_one_list_sum _ 4 hsdenv) (by norm_num) (by
    calc |(t.split_details.map Prod.snd).sum - 100| * 10 ^ 4
        ≤ (|(t.split_details.map Prod.snd).sum| + |(100:ℚ)|) * 10 ^ 4 :=
          mul_le_mul_of_nonneg_right (abs_sub _ _) (by positivity)
      _ ≤ (10 ^ 6 + 100) * 10 ^ 4 := by
          apply mul_le_mul_of_nonneg_right _ (by positivity)
          rw [show |(100:ℚ)| = 100 from by norm_num]
          linarith
      _ ≤ 10 ^ 28 := by norm_num)] at hval_bound
  calc |(t.allUsers.map t.get_user_balance).sum|
      = |(t.allUsers.map (fun u =>
          t.get_user_payment u - t.get_user_share u)).sum| := by
        rw [List.map_congr_left (fun u _ => hbal u)]
    _ = |(t.allUsers.map t.get_user_payment).sum -
        (t.allUsers.map t.get_user_share).sum| := by rw [sum_map_sub]
    _ = |t.total_amount -
        (t.split_details.map Prod.snd).sum * (t.total_amount / 100)| := by
        rw [hpaysum, hsharesum]
    _ = |t.total_amount| * |(t.split_details.map Prod.snd).sum - 100| / 100 := by
        rw [show t.total_amount -
            (t.split_details.map Prod.snd).sum * (t.total_amount / 100)
          = -(t.total_amount * ((t.split_details.map Prod.snd).sum - 100) / 100)
          from by ring]
        rw [abs_neg, abs_div, abs_mul]
        norm_num
    _ ≤ 99 * eps / 100 := by gcongr
    _ ≤ eps := by
        rw [show eps = 1/100 from rfl]
        norm_num

theorem conservation_equal (t : Transaction)
    (hkeys : (keys t.payers).Nodup)
    (hden : ∀ p ∈ t.payers, (p.2 * 10 ^ 4).den = 1)
    (hparts : t.participants.Nodup)
    (hst : t.split_type = .equal) (hne : t.participants ≠ [])
    (hbp : (t.payers.map (fun p => |p.2|)).sum ≤ 10 ^ 15)
    (hlen : t.payers.length + t.participants.length ≤ 10 ^ 6) :
    |(t.allUsers.map t.get_user_balance).sum| ≤ eps := by
  have hus : t.allUsers.Nodup := List.nodup_dedup _
  have hpaysub : ∀ k ∈ keys t.payers, k ∈ t.allUsers := fun k hk =>
    List.mem_dedup.mpr (List.mem_append_left _ hk)
  have hpartsub : ∀ p ∈ t.participants, p ∈ t.allUsers := fun p hp =>
    List.mem_dedup.mpr (List.mem_append_right _ hp)
  have hdenv : ∀ x ∈ t.payers.map Prod.snd, (x * 10 ^ 4).den = 1 := by
    intro x hx
    rcases List.mem_map.mp hx with ⟨p, hp, rfl⟩
    exact hden p hp
  have habs_map : (t.payers.map Prod.snd).map (fun x => |x|) =
      t.payers.map (fun p => |p.2|) := by
    rw [List.map_map]
    rfl
  have htot : t.total_amount = (t.payers.map Prod.snd).sum := by
    unfold Transaction.total_amount
    exact sumD_exact _ hdenv (by
      rw [habs_map]
      exact le_trans hbp (by norm_num))
  have habsT : |t.total_amount| ≤ 10 ^ 15 := by
    rw [htot]
    calc |(t.payers.map Prod.snd).sum|
        ≤ ((t.payers.map Prod.snd).map (fun x => |x|)).sum := abs_list_sum_le _
      _ = (t.payers.map (fun p => |p.2|)).sum := by rw [habs_map]
      _ ≤ 10 ^ 15 := hbp
  have hpay_abs : ∀ u, |t.get_user_payment u| ≤ 10 ^ 15 := by
    intro u
    exact le_trans (abs_lookup_le t.payers u) hbp
  have hn : 0 < t.participants.length := List.length_pos.mpr hne
  have hnQ : (1:ℚ) ≤ (t.participants.length : ℚ) := by exact_mod_cast hn
  have hnQ0 : (0:ℚ) < (t.participants.length : ℚ) := by linarith
  have hnB : ((t.participants.length : ℚ)) ≤ 10 ^ 6 := by
    have : t.participants.length ≤ 10 ^ 6 :=
      le_trans (Nat.le_add_left _ _) hlen
    exact_mod_cast this
  have hTn_abs : |t.total_amount / (t.participants.length : ℚ)| ≤ 10 ^ 15 := by
    rw [abs_div, abs_of_pos hnQ0]
    exact le_trans (div_le_self (abs_nonneg _) hnQ) habsT
  have hs_err :
      |roundQ (t.total_amount / (t.participants.length : ℚ)) -
        t.total_amount / (t.participants.length : ℚ)|
      ≤ |t.total_amount / (t.participants.length : ℚ)| / 10 ^ 27 :=
    roundQ_error _
  have hs_abs : |roundQ (t.total_amount / (t.participants.length : ℚ))| ≤ 2 * 10 ^ 15 := by
    have h1 := abs_add
      (roundQ (t.total_amount / (t.participants.length : ℚ)) -
        t.total_amount / (t.participants.length : ℚ))
      (t.total_amount / (t.participants.length : ℚ))
    simp only [sub_add_cancel] at h1
    have h2 : |t.total_amount / (t.participants.length : ℚ)| / 10 ^ 27
        ≤ |t.total_amount / (t.participants.length : ℚ)| := by
      apply div_le_self (abs_nonneg _)
      norm_num
    linarith
  have hshare_eq : ∀ u, t.get_user_share u =
      if u ∈ t.participants then
        roundQ (t.total_amount / (t.participants.length : ℚ))
      else 0 := fun u => get_user_share_equal_ite t hst u
  have hshare_abs : ∀ u, |t.get_user_share u| ≤ 2 * 10 ^ 15 := by
    intro u
    rw [hshare_eq u]
    split_ifs
    · exact hs_abs
    · norm_num
  have hbal_err : ∀ u,
      |t.get_user_balance u -
        (t.get_user_payment u - t.get_user_share u)| ≤ 3 * 10 ^ 15 / 10 ^ 27 := by
    intro u
    have habs : |t.get_user_payment u - t.get_user_share u| ≤ 3 * 10 ^ 15 := by
      calc |t.get_user_payment u - t.get_user_share u|
          ≤ |t.get_user_payment u| + |t.get_user_share u| := abs_sub _ _
        _ ≤ 3 * 10 ^ 15 := by linarith [hpay_abs u, hshare_abs u]
    calc |t.get_user_balance u -
        (t.get_user_payment u - t.get_user_share u)|
        ≤ |t.get_user_payment u - t.get_user_share u| / 10 ^ 27 :=
          roundQ_error _
      _ ≤ 3 * 10 ^ 15 / 10 ^ 27 := by gcongr
  have hlen_us : ((t.allUsers.length : ℚ)) ≤ 10 ^ 6 := by
    have h1 : t.allUsers.length ≤ (keys t.payers ++ t.participants).length :=
      (List.dedup_sublist _).length_le
    have h2 : (keys t.payers ++ t.participants).length =
        t.payers.length + t.participants.length := by
      rw [List.length_append]
      unfold keys
      rw [List.length_map]
    have : t.allUsers.length ≤ 10 ^ 6 := by
      rw [h2] at h1
      exact le_trans h1 hlen
    exact_mod_cast this
  have hd := sum_map_sub t.allUsers t.get_user_balance
    (fun u => t.get_user_payment u - t.get_user_share u)
  have herr_sum :
      |(t.allUsers.map (fun u => t.get_user_balance u -
        (t.get_user_payment u - t.get_user_share u))).sum|
      ≤ 10 ^ 6 * (3 * 10 ^ 15 / 10 ^ 27) := by
    have h1 := abs_list_sum_le (t.allUsers.map (fun u =>
      t.get_user_balance u - (t.get_user_payment u - t.get_user_share u)))
    rw [List.map_map] at h1
    have h2 := sum_le_card_mul t.allUsers
      ((fun x => |x|) ∘ fun u => t.get_user_balance u -
        (t.get_user_payment u - t.get_user_share u))
      (3 * 10 ^ 15 / 10 ^ 27) (fun u _ => hbal_err u)
    have h3 : ((t.allUsers.length : ℚ)) * (3 * 10 ^ 15 / 10 ^ 27)
        ≤ 10 ^ 6 * (3 * 10 ^ 15 / 10 ^ 27) := by
      apply mul_le_mul_of_nonneg_right hlen_us
      positivity
    linarith
  have hpaysum : (t.allUsers.map t.get_user_payment).sum = t.total_amount := by
    rw [show t.allUsers.map t.get_user_payment =
      t.allUsers.map (fun u => (alookup t.payers u).getD 0) from rfl]
    rw [sum_alookup _ _ hus hkeys hpaysub, htot]
  have hsharesum : (t.allUsers.map t.get_user_share).sum =
      (t.participants.length : ℚ) *
        roundQ (t.total_amount / (t.participants.length : ℚ)) := by
    rw [List.map_congr_left (fun u _ => hshare_eq u)]
    exact sum_map_indicator t.allUsers t.participants _ hus hparts hpartsub
  have hmain : (t.allUsers.map (fun u =>
      t.get_user_payment u - t.get_user_share u)).sum =
      t.total_amount - (t.participants.length : ℚ) *
        roundQ (t.total_amount / (t.participants.length : ℚ)) := by
    rw [sum_map_sub, hpaysum, hsharesum]
  have hmain_bound :
      |t.total_amount - (t.participants.length : ℚ) *
        roundQ (t.total_amount / (t.participants.length : ℚ))|
      ≤ 10 ^ 6 * (10 ^ 15 / 10 ^ 27) := by
    have hne0 : ((t.participants.length : ℚ)) ≠ 0 := ne_of_gt hnQ0
    have heq : t.total_amount - (t.participants.length : ℚ) *
        roundQ (t.total_amount / (t.participants.length : ℚ)) =
        -((t.participants.length : ℚ) *
          (roundQ (t.total_amount / (t.participants.length : ℚ)) -
            t.total_amount / (t.participants.length : ℚ))) := by
      field_simp
      ring
    rw [heq, abs_neg, abs_mul, abs_of_pos hnQ0]
    calc (t.participants.length : ℚ) *
        |roundQ (t.total_amount / (t.participants.length : ℚ)) -
          t.total_amount / (t.participants.length : ℚ)|
        ≤ (t.participants.length : ℚ) *
          (|t.total_amount / (t.participants.length : ℚ)| / 10 ^ 27) := by
          apply mul_le_mul_of_nonneg_left hs_err (le_of_lt hnQ0)
      _ ≤ 10 ^ 6 * (10 ^ 15 / 10 ^ 27) := by
          apply mul_le_mul hnB _ (by positivity) (by norm_num)
          gcongr
  have hsplit : (t.allUsers.map t.get_user_balance).sum =
      (t.allUsers.map (fun u =>
        t.get_user_payment u - t.get_user_share u)).sum +
      (t.allUsers.map (fun u => t.get_user_balance u -
        (t.get_user_payment u - t.get_user_share u))).sum := by
    linarith [hd]
  rw [hsplit]
  calc |(t.allUsers.map (fun u =>
        t.get_user_payment u - t.get_user_share u)).sum +
      (t.allUsers.map (fun u => t.get_user_balance u -
        (t.get_user_payment u - t.get_user_share u))).sum|
      ≤ |(t.allUsers.map (fun u =>
          t.get_user_payment u - t.get_user_share u)).sum| +
        |(t.allUsers.map (fun u => t.get_user_balance u -
          (t.get_user_payment u - t.get_user_share u))).sum| := abs_add _ _
    _ ≤ 10 ^ 6 * (10 ^ 15 / 10 ^ 27) + 10 ^ 6 * (3 * 10 ^ 15 / 10 ^ 27) := by
        apply add_le_add _ herr_sum
        rw [hmain]
        exact hmain_bound
    _ ≤ eps := by
        rw [show eps = 1/100 from rfl]
        norm_num

/-!
  ### Claims
-/

/-- C9: in a ledger with exactly users A, B, C and the one transaction in
which A pays 90 with participants {A, B, C} under EQUAL split, the
per-transaction balances are +60, -30, -30, and
`get_simplified_settlements` returns exactly (B, A, 30) then (C, A, 30)
(B before C by the stable tie-break). -/
theorem C9_dinner_scenario :
    dinnerT.get_user_balance "A" = 60 ∧ dinnerT.get_user_balance "B" = -30 ∧
      dinnerT.get_user_balance "C" = -30 ∧
      dinnerLedger.get_simplified_settlements = [("B", "A", 30), ("C", "A", 30)] := by
  refine ⟨by decide, by decide, by decide, ?_⟩
  rw [get_simplified_settlements_eval]
  decide

/-- C2 counterexample: the valid EQUAL-split transaction "A pays 100 for
{A, B, C}" has share sum `99.99999999999999999999999999 ≠ 100`: Python
`Decimal` division rounds to 28 significant digits, so the claimed
decimal-exact equality fails. -/
theorem C2_counterexample :
    equalSplitT.validate = .ok () ∧ equalSplitT.split_type = .equal ∧
      (equalSplitT.participants.map equalSplitT.get_user_share).sum ≠
        equalSplitT.total_amount :=
  ⟨by decide, rfl, by decide⟩

/-- C2 amended: for an EQUAL-split transaction with at least one
participant and `|total_amount| ≤ 10^25`, the sum of the participants'
shares equals `total_amount` to within epsilon 0.01 (the division is
rounded to 28 significant digits, not exact, so only the epsilon bound
holds in general). -/
theorem C2_equal_share_sum_within_eps (t : Transaction)
    (hst : t.split_type = .equal) (hne : t.participants ≠ [])
    (hb : |t.total_amount| ≤ 10 ^ 25) :
    |(t.participants.map t.get_user_share).sum - t.total_amount| ≤ eps := by
  set T := t.total_amount with hT
  set n := t.participants.length with hn
  have hn0 : 0 < n := List.length_pos.mpr hne
  have npos : (0:ℚ) < (n : ℚ) := by exact_mod_cast hn0
  have hmap : (t.participants.map t.get_user_share).sum = (n:ℚ) * roundQ (T / n) := by
    rw [List.map_congr_left (fun u hu => get_user_share_equal t hst u hu)]
    rw [List.map_const', List.sum_replicate, nsmul_eq_mul]
  rw [hmap]
  calc |(n:ℚ) * roundQ (T / n) - T| = (n:ℚ) * |roundQ (T / n) - T / n| := by
        rw [show (n:ℚ) * roundQ (T / n) - T = (n:ℚ) * (roundQ (T / n) - T / n) from by
          field_simp
          ring]
        rw [abs_mul, abs_of_pos npos]
    _ ≤ (n:ℚ) * (|T / n| / 10 ^ 27) :=
        mul_le_mul_of_nonneg_left (roundQ_error _) npos.le
    _ = |T| / 10 ^ 27 := by
        rw [abs_div, abs_of_pos npos]
        field_simp
        ring
    _ ≤ 10 ^ 25 / 10 ^ 27 := by gcongr
    _ ≤ eps := by
        unfold eps
        norm_num

/-- C2 amended, witnessed at the counterexample transaction itself. -/
theorem C2_equal_share_sum_within_eps_witness :
    |(equalSplitT.participants.map equalSplitT.get_user_share).sum -
      equalSplitT.total_amount| ≤ eps :=
  C2_equal_share_sum_within_eps equalSplitT rfl (by decide) (by decide)

/-- C8 counterexample: removing the duplicate from participants
`["A", "A"]` of an EQUAL split changes A's share from 50 to 100 —
participant multiplicity does matter for EQUAL splits. -/
theorem C8_counterexample :
    dedupPartT.participants = dupPartT.participants.dedup ∧
      dupPartT.get_user_share "A" ≠ dedupPartT.get_user_share "A" :=
  ⟨by decide, by decide⟩

/-- C8 amended: reordering the participants (a permutation) never changes
any user's share, payment or balance under any split rule; removing
duplicate participant ids is guaranteed harmless only for PERCENTAGE and
EXACT splits (EQUAL shares depend on the length of the participants
list, see the counterexample). -/
theorem C8_participants_reorder_dedup (t t' : Transaction)
    (hpay : t'.payers = t.payers) (hst : t'.split_type = t.split_type)
    (hsd : t'.split_details = t.split_details) :
    (t'.participants.Perm t.participants →
      ∀ u, t'.get_user_share u = t.get_user_share u ∧
        t'.get_user_payment u = t.get_user_payment u ∧
        t'.get_user_balance u = t.get_user_balance u) ∧
    (t'.participants = t.participants.dedup →
      (t.split_type = .percentage ∨ t.split_type = .exact) →
      ∀ u, t'.get_user_share u = t.get_user_share u ∧
        t'.get_user_payment u = t.get_user_payment u ∧
        t'.get_user_balance u = t.get_user_balance u) := by
  have htot : t'.total_amount = t.total_amount := by
    unfold Transaction.total_amount
    rw [hpay]
  have hpayment : ∀ u, t'.get_user_payment u = t.get_user_payment u := by
    intro u
    unfold Transaction.get_user_payment
    rw [hpay]
  have hshare_of : ∀ u, (u ∈ t'.participants ↔ u ∈ t.participants) →
      (t.split_type = .equal → t'.participants.length = t.participants.length) →
      t'.get_user_share u = t.get_user_share u := by
    intro u hmem hlen
    unfold Transaction.get_user_share
    rw [hst, hsd, htot]
    by_cases hu : u ∈ t.participants
    · rw [if_neg (not_not_intro (hmem.mpr hu)), if_neg (not_not_intro hu)]
      cases hcase : t.split_type with
      | equal => rw [hlen hcase]
      | percentage => rfl
      | exact => rfl
    · rw [if_pos (fun hc => hu (hmem.mp hc)), if_pos hu]
  constructor
  · intro hperm u
    have hs := hshare_of u hperm.mem_iff (fun _ => hperm.length_eq)
    refine ⟨hs, hpayment u, ?_⟩
    unfold Transaction.get_user_balance
    rw [hs, hpayment u]
  · intro hdedup hdisj u
    have hmem : u ∈ t'.participants ↔ u ∈ t.participants := by
      rw [hdedup]
      exact List.mem_dedup
    have hlen : t.split_type = .equal → t'.participants.length = t.participants.length := by
      intro heq
      rcases hdisj with h | h <;> rw [heq] at h <;> cases h
    have hs := hshare_of u hmem hlen
    refine ⟨hs, hpayment u, ?_⟩
    unfold Transaction.get_user_balance
    rw [hs, hpayment u]

/-- C8 amended, witnessed on a concrete permutation of C9's dinner
transaction, at user B. -/
theorem C8_participants_reorder_dedup_witness :
    permT.get_user_share "B" = dinnerT.get_user_share "B" ∧
      permT.get_user_payment "B" = dinnerT.get_user_payment "B" ∧
      permT.get_user_balance "B" = dinnerT.get_user_balance "B" :=
  (C8_participants_reorder_dedup dinnerT permT rfl rfl rfl).1 (by decide) "B"

/-- C10 counterexample: with payers `{A: 1E28, B: 1}` (constructible
`Decimal` values), PERCENTAGE split and empty details, validation passes
and every share is 0, but the sum of user balances is `10^28 + 1` while
`total_amount` is the rounded `10^28`: the claimed equality fails at
28-significant-digit scale. -/
theorem C10_counterexample :
    hugeT.validate = .ok () ∧ hugeT.split_details = [] ∧
      (hugeT.allUsers.map hugeT.get_user_balance).sum ≠ hugeT.total_amount :=
  ⟨by decide, rfl, by decide⟩

/-- C10 amended: a PERCENTAGE or EXACT transaction with empty (or absent)
split details skips the sum-to-100 / sum-to-total validation entirely
(it validates whenever all payments are positive), every user's share is
0, and — for payer amounts on the cent-scale grid `10^-4` with total
magnitude at most `10^20` (so that no 28-digit rounding fires) — the sum
of all user balances equals `total_amount` rather than zero. -/
theorem C10_empty_details_skip (t : Transaction)
    (hst : t.split_type = .percentage ∨ t.split_type = .exact)
    (hsd : t.split_details = []) :
    ((∀ p ∈ t.payers, 0 < p.2) → t.validate = .ok ()) ∧
    (∀ u, t.get_user_share u = 0) ∧
    ((∀ p ∈ t.payers, (p.2 * 10 ^ 4).den = 1) →
      ((t.payers.map (fun p => |p.2|)).sum ≤ 10 ^ 20) →
      (keys t.payers).Nodup →
      (t.allUsers.map t.get_user_balance).sum = t.total_amount) := by
  have hshare : ∀ u, t.get_user_share u = 0 := by
    intro u
    unfold Transaction.get_user_share
    by_cases hu : u ∈ t.participants
    · rw [if_neg (not_not_intro hu)]
      rcases hst with h | h <;> rw [h, hsd] <;> rfl
    · rw [if_pos hu]
  refine ⟨?_, hshare, ?_⟩
  · intro hpos
    unfold Transaction.validate
    rw [List.find?_eq_none.mpr (fun p hp => by
      simp only [decide_eq_true_eq]
      exact not_le.mpr (hpos p hp))]
    rw [if_neg (fun hc => hc.2.1 hsd), if_neg (fun hc => hc.2.1 hsd)]
  · intro hden hb hkeys
    have hbal : ∀ u, t.get_user_balance u = roundQ (t.get_user_payment u) := by
      intro u
      unfold Transaction.get_user_balance subD
      rw [hshare u, sub_zero]
    have habs : ∀ x ∈ t.payers.map Prod.snd, |x| ≤ 10 ^ 20 := by
      intro x hx
      calc |x| ≤ ((t.payers.map Prod.snd).map (fun y => |y|)).sum := by
            apply List.single_le_sum (fun y hy => ?_) _ (List.mem_map_of_mem _ hx)
            rcases List.mem_map.mp hy with ⟨z, _, rfl⟩
            exact abs_nonneg z
        _ ≤ 10 ^ 20 := by
            rw [List.map_map]
            exact hb
    have hpay_exact : ∀ u, roundQ (t.get_user_payment u) = t.get_user_payment u := by
      intro u
      unfold Transaction.get_user_payment
      cases hlk : alookup t.payers u with
      | none => exact roundQ_zero
      | some v =>
        show roundQ v = v
        apply roundQ_eq_self_den v 4
        · rcases alookup_mem t.payers u v hlk with hmem
          exact hden (u, v) hmem
        · rcases alookup_mem t.payers u v hlk with hmem
          calc |v| * 10 ^ 4 ≤ 10 ^ 20 * 10 ^ 4 := by
                apply mul_le_mul_of_nonneg_right _ (by positivity)
                exact habs v (List.mem_map_of_mem _ hmem)
            _ ≤ 10 ^ 28 := by norm_num
    calc (t.allUsers.map t.get_user_balance).sum
        = (t.allUsers.map t.get_user_payment).sum := by
          apply congrArg
          apply List.map_congr_left
          intro u _
          rw [hbal u, hpay_exact u]
      _ = (t.payers.map Prod.snd).sum := by
          apply sum_alookup _ _ (List.nodup_dedup _) hkeys
          intro k hk
          rw [List.mem_dedup]
          exact List.mem_append_left _ hk
      _ = t.total_amount := by
          unfold Transaction.total_amount
          rw [sumD_exact _ (fun x hx => by
            rcases List.mem_map.mp hx with ⟨p, hp, rfl⟩
            exact hden p hp) (by
              rw [List.map_map]
              exact le_trans hb (by norm_num))]

/-- C10 amended, witnessed on a concrete empty-details PERCENTAGE
transaction. -/
theorem C10_empty_details_skip_witness :
    smallPercT.validate = .ok () ∧ smallPercT.get_user_share "A" = 0 ∧
      (smallPercT.allUsers.map smallPercT.get_user_balance).sum =
        smallPercT.total_amount := by
  have h := C10_empty_details_skip smallPercT (Or.inl rfl) rfl
  exact ⟨h.1 (by decide), h.2.1 "A", h.2.2 (by decide) (by decide) (by decide)⟩

/-- C4 counterexample: a PERCENTAGE transaction whose (empty) split
details sum to 0 — deviating from 100 by far more than 0.01 — is
accepted by `add_transaction`, not rejected: the sum-to-100 check is
skipped for an empty details mapping, so "fails whenever the details sum
deviates" is false as stated. -/
theorem C4_counterexample :
    eps < |subD (sumD (([] : List (String × ℚ)).map Prod.snd)) 100| ∧
      (oneUserLedger.add_transaction "t1" "d" [("A", 100)] ["A"] .percentage []).2 =
        .ok ⟨"t1", "d", [("A", 100)], ["A"], .percentage, []⟩ :=
  ⟨by decide, by decide⟩

/-- C4 amended: `add_transaction` fails with a referential error naming
the first missing id whenever a payer or participant id is unknown
(before the Transaction is constructed), and fails with a validation
error whenever a payment is non-positive or a PERCENTAGE/EXACT split
with a NON-EMPTY details mapping mis-sums by more than 0.01; in every
failure case the returned ledger state is exactly the state before the
call (no transaction stored, index and cache flag unchanged). -/
theorem C4_add_transaction_failure (m : ExpenseManager) (tid desc : String)
    (payers : List (String × ℚ)) (parts : List String) (st : SplitType)
    (sd : List (String × ℚ)) :
    (∀ u, (keys payers ++ parts).find? (fun u' => (alookup m.users u').isNone) = some u →
      m.add_transaction tid desc payers parts st sd = (m, .error (.referential u))) ∧
    ((keys payers ++ parts).find? (fun u' => (alookup m.users u').isNone) = none →
      ((∃ p ∈ payers, p.2 ≤ 0) ∨
        (st = .percentage ∧ sd ≠ [] ∧ eps < |subD (sumD (sd.map Prod.snd)) 100|) ∨
        (st = .exact ∧ sd ≠ [] ∧
          eps < |subD (sumD (sd.map Prod.snd)) (sumD (payers.map Prod.snd))|)) →
      ∃ msg, m.add_transaction tid desc payers parts st sd = (m, .error (.validation msg))) ∧
    (∀ e, (m.add_transaction tid desc payers parts st sd).2 = .error e →
      (m.add_transaction tid desc payers parts st sd).1 = m) := by
  refine ⟨?_, ?_, ?_⟩
  · intro u hu
    unfold ExpenseManager.add_transaction
    rw [hu]
  · intro hnone hviol
    obtain ⟨msg, hval⟩ := validate_error_of
      ⟨tid, desc, payers, parts, st, sd⟩ hviol
    refine ⟨msg, ?_⟩
    unfold ExpenseManager.add_transaction
    rw [hnone]
    unfold mkTransaction
    rw [hval]
  · intro e
    unfold ExpenseManager.add_transaction
    cases hfind : (keys payers ++ parts).find? (fun u' => (alookup m.users u').isNone) with
    | some u => intro _; rfl
    | none =>
      cases hval : mkTransaction tid desc payers parts st sd with
      | error e₀ => intro _; rfl
      | ok _ =>
        intro habs
        cases habs

/-- C4 amended, witnessed: adding a transaction with unknown payer id X
to the one-user ledger fails referentially, naming X, with the ledger
unchanged. -/
theorem C4_add_transaction_failure_witness :
    oneUserLedger.add_transaction "t1" "d" [("X", 5)] ["A"] .equal [] =
      (oneUserLedger, .error (.referential "X")) :=
  (C4_add_transaction_failure oneUserLedger "t1" "d" [("X", 5)] ["A"] .equal []).1
    "X" (by decide)

/-- C6: reading balances from a fresh-cache state returns the cache with
no recomputation; reading twice without mutation returns identical
matrices and the second read serves the cache; `add_user` and every
successful `add_transaction` clear the validity flag; and a read on a
cleared flag recomputes from the current transactions, so no read is
stale with respect to a prior mutation. -/
theorem C6_cache_contract (m : ExpenseManager) (uid name email tid desc : String)
    (payers : List (String × ℚ)) (parts : List String) (st : SplitType)
    (sd : List (String × ℚ)) :
    (m.cache_valid = true → m.get_balances = (m, m.balance_cache)) ∧
    (m.get_balances.1.cache_valid = true ∧
      m.get_balances.1.get_balances = m.get_balances) ∧
    ((m.add_user uid name email).1.cache_valid = false) ∧
    ((m.add_transaction tid desc payers parts st sd).2.isOk = true →
      (m.add_transaction tid desc payers parts st sd).1.cache_valid = false) ∧
    (m.cache_valid = false →
      m.get_balances =
        ({ m with balance_cache := m._calculate_balances, cache_valid := true },
          m._calculate_balances)) := by
  refine ⟨?_, ?_, rfl, ?_, ?_⟩
  · intro h
    unfold ExpenseManager.get_balances
    rw [if_pos h]
  · by_cases h : m.cache_valid = true
    · constructor
      · unfold ExpenseManager.get_balances
        rw [if_pos h]
        exact h
      · unfold ExpenseManager.get_balances
        rw [if_pos h, if_pos h]
    · constructor
      · unfold ExpenseManager.get_balances
        rw [if_neg h]
      · unfold ExpenseManager.get_balances
        rw [if_neg h]
        rw [if_pos rfl]
  · unfold ExpenseManager.add_transaction
    cases hfind : (keys payers ++ parts).find? (fun u' => (alookup m.users u').isNone) with
    | some u => intro habs; cases habs
    | none =>
      cases hval : mkTransaction tid desc payers parts st sd with
      | error e => intro habs; cases habs
      | ok t => intro _; rfl
  · intro h
    unfold ExpenseManager.get_balances
    rw [if_neg (by rw [h]; exact Bool.false_ne_true)]

/-- C6, witnessed on the dinner ledger: the successful add clears the
flag, a repeated read is identical and served from the cache, and the
invalid-flag read recomputes. -/
theorem C6_cache_contract_witness :
    ((dinnerLedger.add_transaction "t2" "x" [("A", 5)] ["B"] .equal []).1.cache_valid
      = false) ∧
    ((dinnerLedger.add_user "D" "Dana" "d@x").1.cache_valid = false) ∧
    dinnerLedger.get_balances.1.get_balances = dinnerLedger.get_balances ∧
    dinnerLedger.get_balances =
      ({ dinnerLedger with
          balance_cache := dinnerLedger._calculate_balances, cache_valid := true },
        dinnerLedger._calculate_balances) := by
  have h := C6_cache_contract dinnerLedger "D" "Dana" "d@x" "t2" "x" [("A", 5)] ["B"]
    .equal []
  exact ⟨h.2.2.2.1 (by decide), h.2.2.1, h.2.1.2, h.2.2.2.2 (by decide)⟩

theorem insertAsc_perm (x : String × ℚ) (l : List (String × ℚ)) :
    (ExpenseManager.insertAsc x l).Perm (x :: l) := by
  induction l with
  | nil => exact List.Perm.refl _
  | cons y ys ih =>
    unfold ExpenseManager.insertAsc
    by_cases hc : y.2 < x.2
    · rw [if_pos hc]
      exact ((ih.cons y).trans (List.Perm.swap x y ys))
    · rw [if_neg hc]

theorem sortAsc_perm (l : List (String × ℚ)) : (ExpenseManager.sortAsc l).Perm l := by
  induction l with
  | nil => exact List.Perm.refl _
  | cons x xs ih =>
    unfold ExpenseManager.sortAsc
    exact (insertAsc_perm x _).trans (ih.cons x)

open ExpenseManager in
theorem settleLoopF_nil_of_small (fuel : ℕ) (bal : List (String × ℚ))
    (h : ∀ p ∈ bal, |p.2| < eps) :
    ∀ i j, settleLoopF fuel bal i j = [] := by
  have hsmall : ∀ k, |debtAt bal k| < eps := by
    intro k
    unfold debtAt
    rcases e : bal[k]? with _ | p
    · rw [List.getD_eq_getElem?_getD, e]
      show |(0:ℚ)| < eps
      rw [abs_zero]
      unfold eps
      norm_num
    · rw [List.getD_eq_getElem?_getD, e]
      exact h p (List.getElem?_mem e)
  induction fuel with
  | zero => intro i j; rfl
  | succ f ih =>
    intro i j
    unfold settleLoopF
    by_cases hij : i < j
    · rw [if_pos hij, if_pos ⟨hsmall i, hsmall j⟩]
      exact ih (i + 1) (j - 1)
    · rw [if_neg hij]

/-- C1 counterexample: in the two-user ledger where A paid 1000 under an
empty-details PERCENTAGE split, A's net balance is 1000 and B's is 0;
`get_simplified_settlements` returns the empty list (the loop breaks on
`debt >= 0` immediately), so applying it leaves A's net balance at 1000,
far outside epsilon — the claimed zeroing property fails. -/
theorem C1_counterexample :
    unmatchedT.validate = .ok () ∧
      unmatchedLedger.get_simplified_settlements = [] ∧
      "A" ∈ unmatchedLedger.userIds ∧
      ¬(|appliedNet unmatchedLedger.get_simplified_settlements
          unmatchedLedger.net_balance "A"| ≤ eps) := by
  have hs : unmatchedLedger.get_simplified_settlements = [] := by
    rw [get_simplified_settlements_eval]
    decide
  refine ⟨by decide, hs, by decide, ?_⟩
  rw [hs]
  decide

/-- C1 amended: the returned settlement list is empty whenever every
user's net balance is already within epsilon of zero (the first skip
branch of the loop fires all the way in); the stronger claim — that
applying the returned settlements always drives every net balance to
within epsilon of zero — is false, see the counterexample. -/
theorem C1_settlements_empty_of_small (m : ExpenseManager)
    (h : ∀ u ∈ m.userIds, |m.net_balance u| < eps) :
    m.get_simplified_settlements = [] := by
  unfold ExpenseManager.get_simplified_settlements
  rw [← settleLoopF_eq
    (((ExpenseManager.sortAsc m.balancesList).length - 1) - 0 + 1) _ 0 _ (by omega)]
  apply settleLoopF_nil_of_small
  intro p hp
  have hmem : p ∈ m.balancesList := (sortAsc_perm _).mem_iff.mp hp
  rcases List.mem_map.mp hmem with ⟨u, hu, rfl⟩
  exact h u hu

/-- C1 amended, witnessed on the transaction-free two-user ledger. -/
theorem C1_settlements_empty_of_small_witness :
    twoUserLedger.get_simplified_settlements = [] :=
  C1_settlements_empty_of_small twoUserLedger (by decide)

/-- C5: with distinct user ids, the matrix `_calculate_balances` builds
is exactly the spec's accumulation: every off-diagonal (debtor,
creditor) pair of users holds `entrySpec` — the fold, over transactions,
of `(balance(creditor) / total_positive(debtor)) * |balance(debtor)|`
added when debtor's balance < 0 < creditor's balance and
`total_positive(debtor) > 0` (zero `total_positive` contributes nothing,
with no division error possible) — every such entry is nonnegative, the
diagonal is never present, and pairs outside the user set are absent
(reads default to 0). -/
theorem C5_calculate_balances_matrix (m : ExpenseManager) (hus : m.userIds.Nodup) :
    (∀ d ∈ m.userIds, ∀ c ∈ m.userIds, d ≠ c →
      entryVal m._calculate_balances d c = some (entrySpec m d c) ∧
        0 ≤ entrySpec m d c) ∧
    (∀ d : String, entryVal m._calculate_balances d d = none) ∧
    (∀ d c : String, c ∉ m.userIds → entryVal m._calculate_balances d c = none) :=
  ⟨fun d hd c hc hne => ⟨entryVal_calc m hus d c hd hc hne, entrySpec_nonneg m d c⟩,
    fun d => entryVal_calc_diag m hus d,
    fun d c hc => entryVal_calc_nonuser m hus d c (Or.inr hc)⟩

/-- C5, witnessed on the dinner ledger at the (B, A) entry and the (A, A)
diagonal. -/
theorem C5_calculate_balances_matrix_witness :
    entryVal dinnerLedger._calculate_balances "B" "A" =
        some (entrySpec dinnerLedger "B" "A") ∧
      0 ≤ entrySpec dinnerLedger "B" "A" ∧
      entryVal dinnerLedger._calculate_balances "A" "A" = none := by
  have h := C5_calculate_balances_matrix dinnerLedger (by decide)
  exact ⟨(h.1 "B" (by decide) "A" (by decide) (by decide)).1,
    (h.1 "B" (by decide) "A" (by decide) (by decide)).2, h.2.1 "A"⟩

open ExpenseManager in
theorem netEntry_fst (B : List (String × List (String × ℚ))) (u : String) :
    ∀ o p, netEntry B u o = some p → p.1 = o := by
  intro o p h
  unfold netEntry at h
  split_ifs at h with h1 h2 h3 <;> cases h <;> rfl

/-- C7: `get_user_balance(user)` fails with a not-found error exactly
when the user is unknown; otherwise it returns the per-counterparty map
whose entry for each other user is `matrix[other][user] -
matrix[user][other]` (what the counterparty owes the user minus what the
user owes the counterparty, positive meaning the counterparty owes),
kept precisely when the two matrix entries differ — only exact zeros
are dropped, with no epsilon threshold. Hypotheses: distinct user ids
and cache coherence (a valid cache equals the recomputation), both
invariants of reachable states. -/
theorem C7_user_balance_view (m : ExpenseManager) (hus : m.userIds.Nodup)
    (hcoh : m.cache_valid = true → m.balance_cache = m._calculate_balances)
    (u : String) :
    (u ∉ m.userIds → m.get_user_balance u = (m, .error (.notFound u))) ∧
    (u ∈ m.userIds → ∃ net, (m.get_user_balance u).2 = .ok net ∧
      (∀ other ∈ m.userIds, other ≠ u →
        alookup net other =
          if (entryVal m.get_balances.2 other u).getD 0 ≠
              (entryVal m.get_balances.2 u other).getD 0 then
            some (subD ((entryVal m.get_balances.2 other u).getD 0)
              ((entryVal m.get_balances.2 u other).getD 0))
          else none) ∧
      (∀ other, other ∉ m.userIds ∨ other = u → alookup net other = none)) := by
  have hB := get_balances_snd m hcoh
  constructor
  · intro hu
    unfold ExpenseManager.get_user_balance
    rw [if_pos (by rw [alookup_eq_none m.users u hu]; rfl)]
  · intro hu
    refine ⟨m.userIds.filterMap (ExpenseManager.netEntry m.get_balances.2 u), ?_, ?_, ?_⟩
    · unfold ExpenseManager.get_user_balance
      rw [if_neg (by
        cases halk : alookup m.users u with
        | none =>
          have hs := alookup_isSome m.users u hu
          rw [halk] at hs
          exact absurd hs (by simp)
        | some v => simp [halk])]
    · intro other hother hne
      rw [alookup_filterMap m.userIds (ExpenseManager.netEntry m.get_balances.2 u)
        (netEntry_fst _ u) hus other]
      rw [if_pos hother, hB, netEntry_calc m hus u other hu hother hne]
      rw [entryVal_calc m hus other u hother hu hne,
        entryVal_calc m hus u other hu hother (fun h => hne h.symm)]
      rw [Option.getD_some, Option.getD_some]
      by_cases hP : entrySpec m other u ≠ entrySpec m u other
      · rw [if_pos hP, if_pos hP]
        rfl
      · rw [if_neg hP, if_neg hP]
        rfl
    · intro other hcases
      rw [alookup_filterMap m.userIds (ExpenseManager.netEntry m.get_balances.2 u)
        (netEntry_fst _ u) hus other]
      rcases hcases with h | h
      · rw [if_neg h]
      · by_cases hmem : other ∈ m.userIds
        · rw [if_pos hmem]
          show (ExpenseManager.netEntry m.get_balances.2 u other).map Prod.snd = none
          unfold ExpenseManager.netEntry
          rw [if_pos h]
          rfl
        · rw [if_neg hmem]

/-- C7, witnessed: querying the unknown user X on the dinner ledger
fails with the not-found error and leaves the ledger unchanged. -/
theorem C7_user_balance_view_witness :
    dinnerLedger.get_user_balance "X" = (dinnerLedger, .error (.notFound "X")) :=
  (C7_user_balance_view dinnerLedger (by decide) (by decide) "X").1 (by decide)

/-- C3, refuted as stated: `smallPercT` (payer A: 5, participants [A],
PERCENTAGE split with empty details) passes validation, yet the sum of
`get_user_balance` over its users is 5, not within epsilon of zero —
the empty-details sum check is skipped and every share is 0. -/
theorem C3_counterexample :
    smallPercT.validate = .ok () ∧
    ¬ |(smallPercT.allUsers.map smallPercT.get_user_balance).sum| ≤ eps := by
  constructor
  · decide
  · decide

/-- C3, amended: money is conserved per transaction — the sum over every
user occurring as payer or participant of `get_user_balance` is within
epsilon 0.01 of zero — for validated transactions with duplicate-free
payer keys, participants and detail keys, detail keys drawn from the
participants, amounts on the 10^-4 grid, and per split rule: EQUAL with a
non-empty participant list, payer magnitudes summing to at most 10^15 and
at most 10^6 users; PERCENTAGE with non-empty details, payer magnitudes
summing to at most 99 and percentage magnitudes to at most 10^6; EXACT
with non-empty details and payer/detail magnitudes summing to at most
10^15.  (Empty-details PERCENTAGE/EXACT transactions validate but are not
conserved.) -/
theorem C3_transaction_conservation (t : Transaction)
    (hval : t.validate = .ok ())
    (hkeys : (keys t.payers).Nodup)
    (hden : ∀ p ∈ t.payers, (p.2 * 10 ^ 4).den = 1)
    (hsdden : ∀ p ∈ t.split_details, (p.2 * 10 ^ 4).den = 1)
    (hsdkeys : (keys t.split_details).Nodup)
    (hsdsub : ∀ k ∈ keys t.split_details, k ∈ t.participants)
    (hparts : t.participants.Nodup) :
    (t.split_type = .equal → t.participants ≠ [] →
      (t.payers.map (fun p => |p.2|)).sum ≤ 10 ^ 15 →
      t.payers.length + t.participants.length ≤ 10 ^ 6 →
      |(t.allUsers.map t.get_user_balance).sum| ≤ eps) ∧
    (t.split_type = .percentage → t.split_details ≠ [] →
      (t.payers.map (fun p => |p.2|)).sum ≤ 99 →
      (t.split_details.map (fun p => |p.2|)).sum ≤ 10 ^ 6 →
      |(t.allUsers.map t.get_user_balance).sum| ≤ eps) ∧
    (t.split_type = .exact → t.split_details ≠ [] →
      (t.payers.map (fun p => |p.2|)).sum ≤ 10 ^ 15 →
      (t.split_details.map (fun p => |p.2|)).sum ≤ 10 ^ 15 →
      |(t.allUsers.map t.get_user_balance).sum| ≤ eps) :=
  ⟨fun hst hne hbp hlen =>
    conservation_equal t hkeys hden hparts hst hne hbp hlen,
   fun hst hsd hbp hbs =>
    conservation_perc t hval hkeys hden hsdden hsdkeys hsdsub hst hsd hbp hbs,
   fun hst hsd hbp hbs =>
    conservation_exact t hval hkeys hden hsdden hsdkeys hsdsub hst hsd hbp hbs⟩

/-- C3, witnessed: the dinner transaction (A pays 90, EQUAL over
[A, B, C]) conserves money to within epsilon. -/
theorem C3_transaction_conservation_witness :
    |(dinnerT.allUsers.map dinnerT.get_user_balance).sum| ≤ eps :=
  (C3_transaction_conservation dinnerT (by decide) (by decide) (by decide)
    (by decide) (by decide) (by decide) (by decide)).1
    (by decide) (by decide) (by decide) (by decide)

end ExpenseTracker
